import Mathlib

/-!
# Configuration snippet extraction for the website templates

A shallow embedding of `scripts/website/expand_templates/linters.go`:
the overview/section extraction over a YAML node tree
(`extractExampleSnippets`, `getSettingSections`, `marshallSnippet`), the
description formatting it relies on (`getDesc`, `formatDesc`) and the linters
table (`getLintersListMarkdown`, `getName`).

Conventions of the embedding.

* Go strings are Lean strings (sequences of runes).
* A `*yaml.Node` is a `yaml.Node` value.  The parsed document is a tree, so the
  children of distinct nodes are disjoint; the one assignment through a pointer
  (`nextNode.Content[i+1].Content = ...`) is modelled by passing the updated
  tree along: every later read goes through the updated value, exactly as a
  later read through the pointer would.
  The nodes kept in `globalNode.Content` are children of the root at indices up
  to `j+1`, and an assignment made at a later index `j'` goes to a grandchild
  below index `j'+1`, so a node kept in the overview has its final state by the
  time it is kept.
* A loop over a slice is a recursion over the list of the elements from the
  current index on; an index past the end of the slice is a missing element of
  that list and is a panic.
* A function that can return a Go `error` or panic returns an `Outcome`.
* Library calls whose result this program cannot compute itself (the YAML
  parser and encoder, reading a JSON file, the Unicode tables) are the fields
  of `Env`; the two sorts, `strings.EqualFold` and what comes from packages
  that are not among the sources are the fields of `Lib`.
-/

namespace ExpandTemplates

/-! ## Results of partial operations -/

/-- Result of a Go call: a value, a non-nil `error`, or a run-time panic. -/
inductive Outcome (α : Type) where
  | ok : α → Outcome α
  | error : String → Outcome α
  | panic : String → Outcome α

namespace Outcome

/-- Sequencing: the first `error` or `panic` ends the computation. -/
def bind {α β : Type} (x : Outcome α) (f : α → Outcome β) : Outcome β :=
  match x with
  | ok a => f a
  | error e => error e
  | panic p => panic p

instance : Monad Outcome where
  pure := Outcome.ok
  bind := Outcome.bind

/-- An `Except` from a library call that reports failure as an `error`. -/
def ofExcept {α : Type} : Except String α → Outcome α
  | Except.ok a => ok a
  | Except.error e => error e

end Outcome

/-! ## The node model of `gopkg.in/yaml.v3` -/

namespace yaml

/-- The `yaml.Kind` type, a `uint32`. -/
abbrev Kind := Nat

/-- The `yaml.Style` type, a `uint32`. -/
abbrev Style := Nat

def DocumentNode : Kind := 1
def SequenceNode : Kind := 2
def MappingNode : Kind := 4
def ScalarNode : Kind := 8
def AliasNode : Kind := 16

/-- The `yaml.Node` struct.  `Alias` is a pointer this program only copies and
never follows: it is kept as a reference number, `0` for `nil`.  A field left
out of a composite literal has its zero value, as in Go (for `Content`, the
empty list is written out). -/
structure Node where
  Kind : Kind := 0
  Style : Style := 0
  Tag : String := ""
  Value : String := ""
  Anchor : String := ""
  Alias : Nat := 0
  Content : List Node
  HeadComment : String := ""
  LineComment : String := ""
  FootComment : String := ""
  Line : Int := 0
  Column : Int := 0

end yaml

open yaml (Node)

/-! ## Records of the metadata files -/

/-- Modelled from the spec: the deprecation record of a linter
(`Deprecation` of the linter package, not among the sources); the three fields
are the ones `linters.go` reads. -/
structure Deprecation where
  Since : String := ""
  Message : String := ""
  Replacement : String := ""

/-- Modelled from the spec: the metadata record `types.LinterWrapper`
(package `scripts/website/types`, not among the sources): one record of a
`*-info.json` file, with the fields `linters.go` reads.  `Internal` is the
boolean flag that filters internal entries; a `nil` deprecation is `none`. -/
structure LinterWrapper where
  Name : String := ""
  Desc : String := ""
  Internal : Bool := false
  Deprecation : Option Deprecation := none
  Groups : List String := []
  CanAutoFix : Bool := false
  Since : String := ""
  OriginalURL : String := ""

/-! ## External collaborators -/

/-- The library calls of `linters.go`.

* `unmarshal` is `yaml.Unmarshal(example, &data)`: the document node `data`, or
  the parse error.
* `encode` is `yaml.NewEncoder(builder)`, `SetIndent(2)`, `Encode(node)`: the
  text written to the builder, or the error.
* `readJSONFile` is `readJSONFile[[]*types.LinterWrapper](path)`.
* `toUpperTable` is `unicode.ToUpper` on runes above ASCII, `isPrintTable` is
  `strconv.IsPrint` on runes above Latin-1 (both table lookups). -/
structure Env where
  unmarshal : String → Except String Node
  encode : Node → Except String String
  readJSONFile : String → Except String (List LinterWrapper)
  toUpperTable : Char → Char
  isPrintTable : Char → Bool

/-! ## Constants -/

def listItemPrefix : String := "list-item-"

def keyLinters : String := "linters"
def keyFormatters : String := "formatters"
def keySettings : String := "settings"

/-! ## Formatting helpers (`fmt`, `strconv`, `unicode`, `strings`) -/

/-- The digits `lowerhex` of `strconv`, most significant first, `width` of them. -/
def lowerHex (width n : Nat) : List Char :=
  (List.range width).reverse.map (fun i => Nat.digitChar ((n / 16 ^ i) % 16))

/-- The function `strconv.IsPrint`: Latin-1 is decided inline, the rest by table. -/
def isPrint (env : Env) (r : Char) : Bool :=
  if r.toNat ≤ 0xFF then
    if 0x20 ≤ r.toNat ∧ r.toNat ≤ 0x7E then true
    else if 0xA1 ≤ r.toNat ∧ r.toNat ≤ 0xFF then r.toNat != 0xAD
    else false
  else env.isPrintTable r

/-- The function `appendEscapedRune` of `strconv` for the quote `"`, with
`ASCIIonly` and `graphicOnly` false, as `strconv.Quote` calls it. -/
def appendEscapedRune (env : Env) (r : Char) : List Char :=
  if r = '"' ∨ r = '\\' then ['\\', r]
  else if isPrint env r then [r]
  else if r.toNat = 7 then ['\\', 'a']
  else if r.toNat = 8 then ['\\', 'b']
  else if r.toNat = 12 then ['\\', 'f']
  else if r = '\n' then ['\\', 'n']
  else if r = '\r' then ['\\', 'r']
  else if r = '\t' then ['\\', 't']
  else if r.toNat = 11 then ['\\', 'v']
  else if r.toNat < 0x20 ∨ r.toNat = 0x7f then '\\' :: 'x' :: lowerHex 2 r.toNat
  else if r.toNat < 0x10000 then '\\' :: 'u' :: lowerHex 4 r.toNat
  else '\\' :: 'U' :: lowerHex 8 r.toNat

/-- The verb `%q` of `fmt` on a string, that is `strconv.Quote`. -/
def goQuote (env : Env) (s : String) : String :=
  String.mk ('"' :: (s.toList.flatMap (appendEscapedRune env) ++ ['"']))

/-- The function `unicode.ToUpper`: ASCII is decided inline, the rest by table. -/
def toUpper (env : Env) (r : Char) : Char :=
  if r.toNat ≤ 0x7F then
    if 'a'.toNat ≤ r.toNat ∧ r.toNat ≤ 'z'.toNat then Char.ofNat (r.toNat - 32) else r
  else env.toUpperTable r

/-- The call `strings.ReplaceAll(s, "\n", "<br/>")`. -/
def replaceNewlines (s : String) : String :=
  String.mk (s.toList.flatMap (fun c => if c = '\n' then "<br/>".toList else [c]))

/-- The function `filepath.Join` on two clean elements. -/
def filepathJoin (dir file : String) : String :=
  if dir = "" then file else dir ++ "/" ++ file

/-! ## Descriptions (`getDesc`, `formatDesc`) -/

/-- The function `span`. -/
def span (env : Env) (title icon : String) : String :=
  "<span title=" ++ goQuote env title ++ ">" ++ icon ++ "</span>"

/-- The function `formatDesc`.  `runes[0] = ...` panics on the empty slice;
`utf8.DecodeRuneInString` yields `utf8.RuneError` on the empty string. -/
def formatDesc (env : Env) (desc : String) : Outcome String :=
  let runes := desc.toList
  let r := match runes with
    | [] => Char.ofNat 0xFFFD
    | c :: _ => c
  match runes with
  | [] => Outcome.panic "index out of range [0] with length 0"
  | _ :: tl =>
    let runes := toUpper env r :: tl
    let runes := if runes.getLast? ≠ some '.' then runes ++ ['.'] else runes
    Outcome.ok (replaceNewlines (String.mk runes))

/-- The function `getDesc`. -/
def getDesc (env : Env) (lc : LinterWrapper) : Outcome String :=
  let desc := lc.Desc
  let desc := match lc.Deprecation with
    | none => desc
    | some d =>
      let desc := d.Message
      if d.Replacement ≠ "" then desc ++ (" Replaced by " ++ d.Replacement ++ ".") else desc
  formatDesc env desc

/-! ## Rendering (`marshallSnippet`) -/

/-- The struct `SettingSnippets`. -/
structure SettingSnippets where
  ConfigurationFile : String := ""
  LintersSettings : String := ""
  FormattersSettings : String := ""

/-- The function `marshallSnippet`: the builder is threaded as a string. -/
def marshallSnippet (env : Env) (node : Node) : Outcome String :=
  let builder := ""
  let builder := if node.Value ≠ "" then builder ++ ("### " ++ node.Value ++ "\n\n") else builder
  let builder := builder ++ ("```yaml" ++ "\n")
  match env.encode node with
  | Except.error err => Outcome.error err
  | Except.ok y =>
    let builder := builder ++ y
    let builder := builder ++ ("```" ++ "\n")
    let builder := builder ++ "\n"
    Outcome.ok builder

/-! ## The extractor -/

/-- The struct `ExampleSnippetsExtractor`. -/
structure ExampleSnippetsExtractor where
  referencePath : String
  assetsPath : String

/-- The function `NewExampleSnippetsExtractor`. -/
def NewExampleSnippetsExtractor : ExampleSnippetsExtractor :=
  { referencePath := ".golangci.reference.yml", assetsPath := "assets" }

/-- The map `lintersDesc` of `getSettingSections`: the latest assignment to a
key comes first; a missing key reads as the empty string. -/
abbrev DescMap := List (String × String)

/-- The assignment `m[k] = v`. -/
def DescMap.set (m : DescMap) (k v : String) : DescMap := (k, v) :: m

/-- The read `m[k]`. -/
def DescMap.get (m : DescMap) (k : String) : String := (m.lookup k).getD ""

/-- The first loop of `getSettingSections`: fills `lintersDesc` from the
records that are not flagged internal. -/
def fillLintersDesc (env : Env) : List LinterWrapper → DescMap → Outcome DescMap
  | [], lintersDesc => Outcome.ok lintersDesc
  | lc :: rest, lintersDesc =>
    if lc.Internal then fillLintersDesc env rest lintersDesc
    else do
      let d ← getDesc env lc
      fillLintersDesc env rest (lintersDesc.set lc.Name d)

/-- The composite literal `r` of `getSettingSections` for the pair
`nextNode.Content[i]`, `nextNode.Content[i+1]` (here `name`, `body`). -/
def sectionDocument (node nextNode name body : Node) : Node :=
  { Kind := yaml.MappingNode
    Tag := nextNode.Tag
    Value := node.Value
    Content := [
      { Kind := yaml.ScalarNode, Value := node.Value, Tag := node.Tag, Content := [] },
      { Kind := yaml.MappingNode
        Content := [
          { Kind := yaml.ScalarNode, Value := "settings", Tag := node.Tag, Content := [] },
          { Kind := yaml.MappingNode, Tag := nextNode.Tag, Content := [name, body] } ] } ] }

/-- The second loop of `getSettingSections`, `for i := 0; i < len; i += 2`,
over the children from index `i` on.  A last child without a partner makes
`nextNode.Content[i+1]` panic. -/
def sectionsLoop (env : Env) (node nextNode : Node) (lintersDesc : DescMap) :
    List Node → String → Outcome String
  | [], builder => Outcome.ok builder
  | [_], _ => Outcome.panic "index out of range"
  | name :: body :: rest, builder =>
    let r := sectionDocument node nextNode name body
    let builder := builder ++ ("### " ++ name.Value ++ "\n\n")
    let builder := builder ++ (lintersDesc.get name.Value ++ "\n\n")
    let builder := builder ++ ("```yaml" ++ "\n")
    match env.encode r with
    | Except.error err => Outcome.error err
    | Except.ok y =>
      let builder := builder ++ y
      let builder := builder ++ ("```" ++ "\n")
      let builder := builder ++ "\n"
      let builder := builder ++
        ("[" ++ span env "Back to the top" "<FaArrowUp />" ++ "](#" ++
          (listItemPrefix ++ name.Value) ++ ")\n\n")
      let builder := builder ++ "\n"
      sectionsLoop env node nextNode lintersDesc rest builder

/-- The method `getSettingSections`. -/
def getSettingSections (env : Env) (e : ExampleSnippetsExtractor) (node nextNode : Node) :
    Outcome String := do
  let linters ← Outcome.ofExcept
    (env.readJSONFile (filepathJoin e.assetsPath (node.Value ++ "-info.json")))
  let lintersDesc ← fillLintersDesc env linters []
  sectionsLoop env node nextNode lintersDesc nextNode.Content ""

/-- The names of the `switch` at the head of the loop over `root.Content`;
any other value takes the `default: continue` branch. -/
def documentedKeys : List String :=
  ["run", "output", keyLinters, keyFormatters, "issues", "severity", "version"]

/-- The loop `for i := 0; i < len(nextNode.Content); i++` of
`extractExampleSnippets`, over the children of `nextNode` from index `i` on.
The result is the children in their state after the loop (the child after a
`settings` child has its `Content` assigned) and the snippets.  A matching
child is followed by the extra `i++`, so its partner is not examined; a
matching last child makes `nextNode.Content[i+1]` panic. -/
def settingsLoop (env : Env) (e : ExampleSnippetsExtractor) (node : Node) :
    List Node → SettingSnippets → Outcome (List Node × SettingSnippets)
  | [], snippets => Outcome.ok ([], snippets)
  | [c], snippets =>
    if c.Value ≠ keySettings then Outcome.ok ([c], snippets)
    else Outcome.panic "index out of range"
  | c :: v :: rest, snippets =>
    if c.Value ≠ keySettings then do
      let (cs, snippets) ← settingsLoop env e node (v :: rest) snippets
      Outcome.ok (c :: cs, snippets)
    else do
      let settingSections ← getSettingSections env e node v
      let snippets :=
        if node.Value = keyLinters then { snippets with LintersSettings := settingSections }
        else if node.Value = keyFormatters then
          { snippets with FormattersSettings := settingSections }
        else snippets
      let v := { v with
        Content := [
          { HeadComment :=
              "See the dedicated \"" ++ node.Value ++ "." ++ c.Value ++
                "\" documentation section."
            Kind := node.Kind
            Style := node.Style
            Tag := node.Tag
            Value := "option"
            Content := [] },
          { Kind := node.Kind
            Style := node.Style
            Tag := node.Tag
            Value := "value"
            Content := [] } ] }
      let (cs, snippets) ← settingsLoop env e node rest snippets
      Outcome.ok (c :: v :: cs, snippets)

/-- The variables the loop over `root.Content` updates: `globalNode.Content`,
`snippets` and `builder`. -/
structure LoopState where
  globalContent : List Node := []
  snippets : SettingSnippets := {}
  builder : String := ""

/-- The loop `for j, node := range root.Content` of `extractExampleSnippets`.
`node` is the child at index `j` in its current state and `rest` the children
after it, so `root.Content[j+1]` is the head of `rest` and panics when `rest`
is empty.  The result is the loop variables and the children from index `j`
on in their state after the loop. -/
def topLevelLoop (env : Env) (e : ExampleSnippetsExtractor) (root : Node) :
    Node → List Node → LoopState → Outcome (LoopState × List Node)
  | node, [], st =>
    if node.Value ∉ documentedKeys then Outcome.ok (st, [node])
    else Outcome.panic "index out of range"
  | node, nextNode :: rest, st =>
    if node.Value ∉ documentedKeys then do
      let (st, cs) ← topLevelLoop env e root nextNode rest st
      Outcome.ok (st, node :: cs)
    else do
      let newNode : Node :=
        { Kind := nextNode.Kind
          Content := [
            { HeadComment := "See the dedicated " ++ goQuote env node.Value ++
                " documentation section."
              Kind := node.Kind
              Style := node.Style
              Tag := node.Tag
              Value := "option"
              Content := [] },
            { Kind := node.Kind
              Style := node.Style
              Tag := node.Tag
              Value := "value"
              Content := [] } ] }
      let globalContent :=
        if node.Value = "version" then
          let n : Node :=
            { HeadComment := "See the dedicated " ++ goQuote env node.Value ++
                " documentation section."
              Kind := node.Kind
              Style := node.Style
              Tag := node.Tag
              Value := node.Value
              Content := node.Content }
          st.globalContent ++ [n, nextNode]
        else st.globalContent ++ [node, newNode]
      let (nextNode, snippets) ←
        (if node.Value = keyLinters ∨ node.Value = keyFormatters then do
          let (cs, snippets) ← settingsLoop env e node nextNode.Content st.snippets
          Outcome.ok ({ nextNode with Content := cs }, snippets)
        else Outcome.ok (nextNode, st.snippets))
      let nodeSection : Node :=
        { Kind := root.Kind
          Style := root.Style
          Tag := root.Tag
          Value := root.Value
          Content := [node, nextNode] }
      let snippet ← marshallSnippet env nodeSection
      let builder := st.builder ++ ("### `" ++ node.Value ++ "` configuration\n\n" ++ snippet)
      let (st, cs) ← topLevelLoop env e root nextNode rest
        { globalContent := globalContent, snippets := snippets, builder := builder }
      Outcome.ok (st, node :: cs)

/-- The loop over `root.Content` from its first child: the loop variables and
the tree under `root` after the loop. -/
def runTopLevelLoop (env : Env) (e : ExampleSnippetsExtractor) (root : Node) :
    Outcome (LoopState × Node) :=
  match root.Content with
  | [] => Outcome.ok ({}, root)
  | node :: rest => do
    let (st, cs) ← topLevelLoop env e root node rest {}
    Outcome.ok (st, { root with Content := cs })

/-- The node `globalNode` of `extractExampleSnippets` with the given children. -/
def globalNode (root : Node) (content : List Node) : Node :=
  { Kind := root.Kind
    Style := root.Style
    Tag := root.Tag
    Value := root.Value
    Anchor := root.Anchor
    Alias := root.Alias
    HeadComment := root.HeadComment
    LineComment := root.LineComment
    FootComment := root.FootComment
    Line := root.Line
    Column := root.Column
    Content := content }

/-- The method `extractExampleSnippets` on the bytes `reference` of the
document (the parameter `example` of the source). -/
def extractExampleSnippets (env : Env) (e : ExampleSnippetsExtractor) (reference : String) :
    Outcome SettingSnippets :=
  match env.unmarshal reference with
  | Except.error err => Outcome.error err
  | Except.ok data =>
    match data.Content with
    | [] => Outcome.panic "index out of range [0] with length 0"
    | root :: _ => do
      let (st, _) ← runTopLevelLoop env e root
      let overview ← marshallSnippet env (globalNode root st.globalContent)
      Outcome.ok { st.snippets with ConfigurationFile := overview ++ st.builder }


/-! ## The linters table (`getLintersListMarkdown`, `getName`) -/

/-- Modelled from the spec: what `linters.go` takes from packages that are not
among the sources and from the standard library.

* `GroupStandard` is the constant `config.GroupStandard`.
* `IsDeprecated` is the method `(*types.LinterWrapper).IsDeprecated`.
* `lintersSettingsFields` and `formatterSettingsFields` are the field names
  `reflect` finds in `config.LintersSettings` and `config.FormatterSettings`.
* `EqualFold` is `strings.EqualFold`.
* `sortSlice` is `sort.Slice` with its `less` function read on the elements,
  `sortFunc` is `slices.SortFunc`; both return the sorted slice. -/
structure Lib where
  GroupStandard : String
  IsDeprecated : LinterWrapper → Bool
  lintersSettingsFields : List String
  formatterSettingsFields : List String
  EqualFold : String → String → Bool
  sortSlice : (LinterWrapper → LinterWrapper → Bool) → List LinterWrapper → List LinterWrapper
  sortFunc : (LinterWrapper → LinterWrapper → Int) → List LinterWrapper → List LinterWrapper

/-- The function `strings.Compare`. -/
def stringsCompare (a b : String) : Int :=
  if a = b then 0 else if a < b then -1 else 1

/-- The function `strings.Contains`. -/
def stringsContains (s substr : String) : Bool :=
  s.toList.tails.any (fun t => substr.toList.isPrefixOf t)

/-- The function `spanWithID`. -/
def spanWithID (env : Env) (id title icon : String) : String :=
  "<span id=" ++ goQuote env id ++ " title=" ++ goQuote env title ++ ">" ++ icon ++ "</span>"

/-- The function `hasSettings`: the two loops over the struct fields. -/
def hasSettings (lib : Lib) (name : String) : Bool :=
  if lib.lintersSettingsFields.any (fun field => lib.EqualFold name field) then true
  else if lib.formatterSettingsFields.any (fun field => lib.EqualFold name field) then true
  else false

/-- The function `check`. -/
def check (env : Env) (b : Bool) (title : String) : String :=
  if b then span env title "✔" else ""

/-- The value of `name` in `getName` when the test `lc.Deprecation == nil` of
its last part is reached: the anchor, the link to the configuration and the
link to the repository. -/
def nameWithLinks (env : Env) (lib : Lib) (lc : LinterWrapper) : String :=
  let name := spanWithID env (listItemPrefix ++ lc.Name) "" ""
  let name :=
    if hasSettings lib lc.Name ∧ lc.Deprecation.isNone then
      name ++ ("[" ++ lc.Name ++ "&nbsp;" ++ "<FaCog size=\x7b\x270.8rem\x27\x7d />" ++ "](#" ++
        lc.Name ++ " \"" ++ lc.Name ++ " configuration\")")
    else
      name ++ (spanWithID env lc.Name "" "" ++ "[" ++ lc.Name ++ "](#" ++ lc.Name ++ " \"" ++
        lc.Name ++ " has no configuration\")")
  if lc.OriginalURL ≠ "" then
    let icon := "<FaGithub size=\x7b\x270.8rem\x27\x7d />"
    let icon :=
      if stringsContains lc.OriginalURL "gitlab" then "<FaGitlab size=\x7b\x270.8rem\x27\x7d />"
      else icon
    name ++ ("&nbsp;[" ++ span env (lc.Name ++ " repository") icon ++ "](" ++
      lc.OriginalURL ++ ")")
  else name

/-- The function `getName`. -/
def getName (env : Env) (lib : Lib) (lc : LinterWrapper) : String :=
  let name := nameWithLinks env lib lc
  match lc.Deprecation with
  | none => name
  | some deprecation =>
    let title := "deprecated"
    let title :=
      if deprecation.Replacement ≠ "" then title ++ (" since " ++ deprecation.Since) else title
    name ++ "&nbsp;" ++ span env title "⚠"

/-- The comparator passed to `slices.SortFunc` in `getLintersListMarkdown`. -/
def compareLinters (lib : Lib) (a b : LinterWrapper) : Int :=
  if lib.IsDeprecated a ∧ lib.IsDeprecated b then stringsCompare a.Name b.Name
  else if lib.IsDeprecated a then 1
  else if lib.IsDeprecated b then -1
  else stringsCompare a.Name b.Name

/-- The slice `neededLcs` of `getLintersListMarkdown` after its first loop. -/
def neededLinters (lib : Lib) (enabled : Bool) : List LinterWrapper → List LinterWrapper
  | [] => []
  | lc :: rest =>
    if lc.Internal then neededLinters lib enabled rest
    else if decide (lib.GroupStandard ∈ lc.Groups) = enabled then
      lc :: neededLinters lib enabled rest
    else neededLinters lib enabled rest

/-- The slice `neededLcs` of `getLintersListMarkdown` after the two sorts. -/
def sortedLinters (lib : Lib) (enabled : Bool) (linters : List LinterWrapper) :
    List LinterWrapper :=
  lib.sortFunc (compareLinters lib)
    (lib.sortSlice (fun a b => decide (a.Name < b.Name)) (neededLinters lib enabled linters))

/-- The last loop of `getLintersListMarkdown`: one table line per record. -/
def tableLines (env : Env) (lib : Lib) : List LinterWrapper → List String → Outcome (List String)
  | [], lines => Outcome.ok lines
  | lc :: rest, lines => do
    let desc ← getDesc env lc
    let line := "|" ++ getName env lib lc ++ "|" ++ desc ++ "|" ++
      check env lc.CanAutoFix "Auto fix supported" ++ "|" ++ lc.Since ++ "|"
    tableLines env lib rest (lines ++ [line])

/-- The function `getLintersListMarkdown`; a read error is a panic. -/
def getLintersListMarkdown (env : Env) (lib : Lib) (enabled : Bool) (src : String) :
    Outcome String :=
  match env.readJSONFile src with
  | Except.error err => Outcome.panic err
  | Except.ok linters => do
    let neededLcs := sortedLinters lib enabled linters
    let lines := [
      "|Name|Description|AutoFix|Since|",
      "|----|-----------|-------|-----|" ]
    let lines ← tableLines env lib neededLcs lines
    Outcome.ok (String.intercalate "\n" lines)

/-! ## Closed forms of the loops

Pure functions that describe what a run of the loops that ends without error
and without panic leaves behind; the lemmas below relate them to the loops. -/

/-- The children of `nextNode` after `settingsLoop`: the child after an
examined `settings` child has its `Content` replaced by the two-node
placeholder, every other child is as before. -/
def settingsRedacted (node : Node) : List Node → List Node
  | [] => []
  | [c] => [c]
  | c :: v :: rest =>
    if c.Value ≠ keySettings then c :: settingsRedacted node (v :: rest)
    else
      c :: { v with
        Content := [
          { HeadComment :=
              "See the dedicated \"" ++ node.Value ++ "." ++ c.Value ++
                "\" documentation section."
            Kind := node.Kind
            Style := node.Style
            Tag := node.Tag
            Value := "option"
            Content := [] },
          { Kind := node.Kind
            Style := node.Style
            Tag := node.Tag
            Value := "value"
            Content := [] } ] } :: settingsRedacted node rest

/-- The children of `root` from `node` on after `topLevelLoop`: the child after
a `linters` or `formatters` child has its children redacted. -/
def topLevelRedacted : Node → List Node → List Node
  | node, [] => [node]
  | node, nextNode :: rest =>
    if node.Value = keyLinters ∨ node.Value = keyFormatters then
      node :: topLevelRedacted
        { nextNode with Content := settingsRedacted node nextNode.Content } rest
    else node :: topLevelRedacted nextNode rest

/-- The two nodes the top-level loop appends to `globalNode.Content` for the
child `node` followed by `nextNode`. -/
def overviewPair (env : Env) (node nextNode : Node) : List Node :=
  if node.Value = "version" then
    [ { HeadComment := "See the dedicated " ++ goQuote env node.Value ++
          " documentation section."
        Kind := node.Kind
        Style := node.Style
        Tag := node.Tag
        Value := node.Value
        Content := node.Content },
      nextNode ]
  else
    [ node,
      { Kind := nextNode.Kind
        Content := [
          { HeadComment := "See the dedicated " ++ goQuote env node.Value ++
              " documentation section."
            Kind := node.Kind
            Style := node.Style
            Tag := node.Tag
            Value := "option"
            Content := [] },
          { Kind := node.Kind
            Style := node.Style
            Tag := node.Tag
            Value := "value"
            Content := [] } ] } ]

/-- What the top-level loop appends to `globalNode.Content` over the children
`node :: rest`, read off the children in their state after the loop. -/
def overviewPairs (env : Env) : List Node → List Node
  | [] => []
  | [_] => []
  | node :: nextNode :: rest =>
    (if node.Value ∈ documentedKeys then overviewPair env node nextNode else []) ++
      overviewPairs env (nextNode :: rest)

/-- All fields of a node but its children. -/
def yaml.Node.shallow (n : Node) : Node := { n with Content := [] }

/-- The values of the nodes at the key positions (even indices) of the
children of a mapping. -/
def keyNames : List Node → List String
  | [] => []
  | [k] => [k.Value]
  | k :: _ :: rest => k.Value :: keyNames rest

/-- The (key, value) pairs of the children of a mapping; a last child without
a partner is left out. -/
def pairsOf : List Node → List (Node × Node)
  | [] => []
  | [_] => []
  | k :: v :: rest => (k, v) :: pairsOf rest

/-- How many of the first `j` children have a value in `documentedKeys`. -/
def documentedBefore (cs : List Node) (j : Nat) : Nat :=
  (((cs.map Node.Value).take j).filter (fun v => decide (v ∈ documentedKeys))).length


/-! ## The nodes handed to the encoder

Pure functions that list, in order, the nodes a run hands to the encoder when
nothing stops it before. -/

/-- The section documents `getSettingSections` encodes for the `settings`
value `sv` of the container key `node`. -/
def sectionDocuments (node sv : Node) : List Node :=
  (pairsOf sv.Content).map (fun p => sectionDocument node sv p.1 p.2)

/-- The nodes encoded during `settingsLoop` over the children `cs`. -/
def settingsEncoded (node : Node) : List Node → List Node
  | [] => []
  | [_] => []
  | c :: v :: rest =>
    if c.Value ≠ keySettings then settingsEncoded node (v :: rest)
    else sectionDocuments node v ++ settingsEncoded node rest

/-- The nodes encoded during `topLevelLoop`: for each documented child the
section documents of its `settings` values, then its per-key section node
`nodeSection`. -/
def topLevelEncoded (root : Node) : Node → List Node → List Node
  | _, [] => []
  | node, nextNode :: rest =>
    if node.Value ∉ documentedKeys then topLevelEncoded root nextNode rest
    else if node.Value = keyLinters ∨ node.Value = keyFormatters then
      settingsEncoded node nextNode.Content ++
        { Kind := root.Kind
          Style := root.Style
          Tag := root.Tag
          Value := root.Value
          Content := [node, { nextNode with
            Content := settingsRedacted node nextNode.Content }] } ::
        topLevelEncoded root { nextNode with
          Content := settingsRedacted node nextNode.Content } rest
    else
      { Kind := root.Kind
        Style := root.Style
        Tag := root.Tag
        Value := root.Value
        Content := [node, nextNode] } :: topLevelEncoded root nextNode rest

/-- The nodes `extractExampleSnippets` synthesizes and encodes for the root
`root`: the section documents and per-key section nodes, then the overview
node. -/
def encodedNodes (env : Env) (root : Node) : List Node :=
  match root.Content with
  | [] => [globalNode root []]
  | node :: rest =>
    topLevelEncoded root node rest ++
      [globalNode root (overviewPairs env (topLevelRedacted node rest))]

/-! ## Example inputs -/

/-- A plain scalar as the parser builds it. -/
def scalarNode (value : String) : Node :=
  { Kind := yaml.ScalarNode, Tag := "!!str", Value := value, Content := [] }

/-- A block mapping as the parser builds it. -/
def mappingNode (content : List Node) : Node :=
  { Kind := yaml.MappingNode, Tag := "!!map", Content := content }

/-- The text of the sample encoder: the values of the children of the node on
one line. -/
def sampleRender (n : Node) : String :=
  String.intercalate "," (n.Content.map Node.Value) ++ "\n"

/-- An environment whose parser yields `doc`, whose encoder writes the values
of the children of the node on one line, and whose metadata files hold
`records`. -/
def sampleEnv (doc : Node) (records : List LinterWrapper) : Env :=
  { unmarshal := fun _ => Except.ok { Kind := yaml.DocumentNode, Content := [doc] }
    encode := fun n => Except.ok (sampleRender n)
    readJSONFile := fun _ => Except.ok records
    toUpperTable := fun c => c
    isPrintTable := fun _ => true }

/-- The `settings` mapping of `sampleDocument`: the sections `nolintlint` and
`unused`. -/
def sampleSettings : Node :=
  mappingNode [
    scalarNode "nolintlint", mappingNode [scalarNode "allow-unused", scalarNode "false"],
    scalarNode "unused", mappingNode [scalarNode "local-variables-are-used",
      scalarNode "false"]]

/-- The document of the example of the specification:
`run`, `linters.settings` with the sections `nolintlint` and `unused`, and
`version: "2"`. -/
def sampleDocument : Node :=
  mappingNode [
    scalarNode "run", mappingNode [scalarNode "timeout", scalarNode "5m"],
    scalarNode "linters", mappingNode [
      scalarNode "default", scalarNode "none",
      scalarNode "settings", sampleSettings],
    scalarNode "version", { scalarNode "2" with Style := 2 }]

/-- Metadata records for the sections of `sampleDocument`. -/
def sampleRecords : List LinterWrapper :=
  [ { Name := "nolintlint", Desc := "reports ill-formed nolint directives" },
    { Name := "unused", Desc := "checks for unused code." } ]

/-- The map `lintersDesc` that `sampleRecords` yields. -/
def sampleDescriptions : DescMap :=
  [("unused", "Checks for unused code."), ("nolintlint", "Reports ill-formed nolint directives.")]

/-- The document `mode: run` followed by `level: high`: the scalar value `run`
is not a key of the root mapping. -/
def strayValueDocument : Node :=
  mappingNode [scalarNode "mode", scalarNode "run", scalarNode "level", scalarNode "high"]

/-- The document `issues:` (a key with an empty value, which the parser reads
as a null scalar) followed by `version: "2"`. -/
def emptyIssuesDocument : Node :=
  mappingNode [
    scalarNode "issues", { Kind := yaml.ScalarNode, Tag := "!!null", Content := [] },
    scalarNode "version", { scalarNode "2" with Style := 2 }]

/-- The document `version: "2"` followed by `mode: run`: the last node of the
root mapping is the scalar value `run`. -/
def trailingValueDocument : Node :=
  mappingNode [
    scalarNode "version", { scalarNode "2" with Style := 2 },
    scalarNode "mode", scalarNode "run"]

/-- The environment `sampleEnv` with metadata files that cannot be read. -/
def unreadableEnv (doc : Node) : Env :=
  { sampleEnv doc [] with
    readJSONFile := fun path =>
      Except.error ("open " ++ path ++ ": no such file or directory") }

/-! ## Further notions used by the properties -/

/-- The last record not flagged internal whose name is `name`. -/
def lastNonInternal (name : String) (linters : List LinterWrapper) : Option LinterWrapper :=
  (linters.filter (fun lc => !lc.Internal && lc.Name == name)).getLast?

/-- Every mapping node of the tree under `n`, at every depth, has an even
number of children. -/
inductive EvenMappings : Node → Prop where
  | mk (n : Node) (even : n.Kind = yaml.MappingNode → n.Content.length % 2 = 0)
      (children : ∀ c ∈ n.Content, EvenMappings c) : EvenMappings n

/-- The line of the linters table for the record `lc` with the formatted
description `desc`. -/
def tableLine (env : Env) (lib : Lib) (lc : LinterWrapper) (desc : String) : String :=
  "|" ++ getName env lib lc ++ "|" ++ desc ++ "|" ++
    check env lc.CanAutoFix "Auto fix supported" ++ "|" ++ lc.Since ++ "|"

/-! ## Further example inputs -/

/-- A library whose sorts are insertion sorts, whose `IsDeprecated` tests for
a deprecation record and whose settings structs have the fields `Govet` and
`Gofmt`. -/
def sampleLib : Lib :=
  { GroupStandard := "standard"
    IsDeprecated := fun lc => lc.Deprecation.isSome
    lintersSettingsFields := ["Govet"]
    formatterSettingsFields := ["Gofmt"]
    EqualFold := fun a b => a.toLower == b.toLower
    sortSlice := fun less l => l.insertionSort (fun a b => less b a = false)
    sortFunc := fun cmp l => l.insertionSort (fun a b => cmp a b ≤ 0) }

/-- Metadata records of a linters table: a deprecated linter, two current
ones and an internal one. -/
def sampleLinters : List LinterWrapper :=
  [ { Name := "golint"
      Desc := "checks style"
      Deprecation := some
        { Since := "v1.41.0"
          Message := "The repository is archived."
          Replacement := "revive" } },
    { Name := "unused", Desc := "checks for unused code.", Groups := ["standard"] },
    { Name := "typecheck"
      Desc := "front-end of the type checker"
      Internal := true
      Groups := ["standard"] },
    { Name := "govet"
      Desc := "examines Go source code"
      Groups := ["standard"]
      CanAutoFix := true
      Since := "v1.0.0" } ]

/-- The document `version: "2"` whose key carries a line comment and a foot
comment, followed by `run` with an empty mapping. -/
def commentedVersionDocument : Node :=
  mappingNode [
    { scalarNode "version" with
      LineComment := "# schema version"
      FootComment := "# do not change" },
    { scalarNode "2" with Style := 2 },
    scalarNode "run", mappingNode []]

/-- The document `linters:` with the pair `default: none`, followed by
`mode: issues`: the last node of the root mapping is the scalar value
`issues`. -/
def trailingIssuesDocument : Node :=
  mappingNode [
    scalarNode "linters", mappingNode [scalarNode "default", scalarNode "none"],
    scalarNode "mode", scalarNode "issues"]

/-- The document `linters:` with the pair `default: settings`: the last child
of the value of `linters` is the scalar value `settings`. -/
def trailingSettingsDocument : Node :=
  mappingNode [
    scalarNode "linters", mappingNode [scalarNode "default", scalarNode "settings"]]

/-- A check of `EvenMappings` that explores the tree under `n` to the depth
`d`: it holds only when the tree ends within that depth. -/
def evenWithin : Nat → Node → Bool
  | 0, n => (n.Kind != yaml.MappingNode || n.Content.length % 2 == 0) && n.Content.isEmpty
  | d + 1, n =>
    (n.Kind != yaml.MappingNode || n.Content.length % 2 == 0) &&
      n.Content.all (fun c => evenWithin d c)

/-! ## Example inputs with a value named like the key `settings` -/

/-- The `settings` mapping of the documents below: the one section `govet`. -/
def govetSettings : Node :=
  mappingNode [scalarNode "govet", mappingNode [scalarNode "enable-all", scalarNode "true"]]

/-- The document `linters:` with the pair `default: settings` followed by the
pair `settings:` with the section `govet`: the value of `default` is the
scalar `settings`. -/
def settingsValueFirstDocument : Node :=
  mappingNode [
    scalarNode "linters", mappingNode [
      scalarNode "default", scalarNode "settings",
      scalarNode "settings", govetSettings]]

/-- The document `linters:` with the pair `settings:` with the section
`govet`, followed by the pairs `mode: settings` and `fast: true`: the value
of `mode` is the scalar `settings`. -/
def settingsValueLastDocument : Node :=
  mappingNode [
    scalarNode "linters", mappingNode [
      scalarNode "settings", govetSettings,
      scalarNode "mode", scalarNode "settings",
      scalarNode "fast", scalarNode "true"]]

/-- The environment `sampleEnv` with an encoder that refuses a node when a
mapping node of its tree, explored to the depth 8, has an odd number of
children. -/
def strictEnv (doc : Node) (records : List LinterWrapper) : Env :=
  { sampleEnv doc records with
    encode := fun n =>
      if evenWithin 8 n then Except.ok (sampleRender n)
      else Except.error "yaml: mapping with an odd number of children" }

/-! ## Lemmas

### Sequencing of outcomes -/

namespace Outcome

@[simp] theorem ok_bind {α β : Type} (a : α) (f : α → Outcome β) :
    (Outcome.ok a >>= f) = f a := rfl

@[simp] theorem error_bind {α β : Type} (err : String) (f : α → Outcome β) :
    (Outcome.error err >>= f) = Outcome.error err := rfl

@[simp] theorem panic_bind {α β : Type} (p : String) (f : α → Outcome β) :
    (Outcome.panic p >>= f) = Outcome.panic p := rfl

theorem bind_eq_ok {α β : Type} {x : Outcome α} {f : α → Outcome β} {b : β} :
    (x >>= f) = Outcome.ok b ↔ ∃ a, x = Outcome.ok a ∧ f a = Outcome.ok b := by
  cases x <;> simp

theorem bind_eq_error {α β : Type} {x : Outcome α} {f : α → Outcome β} {err : String} :
    (x >>= f) = Outcome.error err ↔
      x = Outcome.error err ∨ ∃ a, x = Outcome.ok a ∧ f a = Outcome.error err := by
  cases x <;> simp

end Outcome

/-! ### The loops and their closed forms -/

/-- A run of `settingsLoop` that ends normally leaves the children
`settingsRedacted` describes. -/
theorem settingsLoop_children (env : Env) (e : ExampleSnippetsExtractor) (node : Node) :
    ∀ (n : Nat) (cs : List Node), cs.length ≤ n →
      ∀ (s : SettingSnippets) (cs' : List Node) (s' : SettingSnippets),
        settingsLoop env e node cs s = Outcome.ok (cs', s') →
          cs' = settingsRedacted node cs := by
  intro n
  induction n with
  | zero =>
    intro cs hn s cs' s' h
    obtain rfl : cs = [] := List.length_eq_zero.mp (Nat.le_zero.mp hn)
    simp [settingsLoop] at h
    simp [settingsRedacted, h.1]
  | succ n ih =>
    intro cs hn s cs' s' h
    match cs, hn with
    | [], _ =>
      simp [settingsLoop] at h
      simp [settingsRedacted, h.1]
    | [c], _ =>
      rw [settingsLoop] at h
      split at h
      · simp at h
        simp [settingsRedacted, h.1]
      · simp at h
    | c :: v :: rest, hn =>
      rw [settingsLoop] at h
      rw [settingsRedacted]
      split at h
      · rename_i hc
        rw [if_pos hc]
        rw [Outcome.bind_eq_ok] at h
        obtain ⟨⟨cs1, s1⟩, h1, h2⟩ := h
        simp at h2
        have := ih (v :: rest) (by simpa using hn) s cs1 s1 h1
        rw [← h2.1, this]
      · rename_i hc
        rw [if_neg hc]
        rw [Outcome.bind_eq_ok] at h
        obtain ⟨ss, _, h⟩ := h
        rw [Outcome.bind_eq_ok] at h
        obtain ⟨⟨cs1, s1⟩, h1, h2⟩ := h
        simp at h2
        have := ih rest (by simp at hn; omega) _ cs1 s1 h1
        simp [← h2.1, this]

theorem topLevelRedacted_eq_cons (node : Node) (rest : List Node) :
    ∃ tl, topLevelRedacted node rest = node :: tl ∧ tl.length = rest.length := by
  induction rest generalizing node with
  | nil => exact ⟨[], by simp [topLevelRedacted]⟩
  | cons nextNode rest ih =>
    rw [topLevelRedacted]
    split
    · obtain ⟨tl, h, hl⟩ := ih { nextNode with Content := settingsRedacted node nextNode.Content }
      exact ⟨_, rfl, by simp [h, hl]⟩
    · obtain ⟨tl, h, hl⟩ := ih nextNode
      exact ⟨_, rfl, by simp [h, hl]⟩

/-- A run of `topLevelLoop` that ends normally leaves the children
`topLevelRedacted` describes and appends `overviewPairs` of them to the
overview. -/
theorem topLevelLoop_children (env : Env) (e : ExampleSnippetsExtractor) (root : Node) :
    ∀ (rest : List Node) (node : Node) (st st' : LoopState) (cs' : List Node),
      topLevelLoop env e root node rest st = Outcome.ok (st', cs') →
        cs' = topLevelRedacted node rest ∧
          st'.globalContent = st.globalContent ++ overviewPairs env cs' := by
  intro rest
  induction rest with
  | nil =>
    intro node st st' cs' h
    rw [topLevelLoop] at h
    split at h
    · simp at h
      simp [topLevelRedacted, ← h.1, ← h.2, overviewPairs]
    · simp at h
  | cons nextNode rest ih =>
    intro node st st' cs' h
    rw [topLevelLoop] at h
    split at h
    · rename_i hk
      rw [Outcome.bind_eq_ok] at h
      obtain ⟨⟨st1, cs1⟩, h1, h2⟩ := h
      simp at h2
      obtain ⟨hc, hg⟩ := ih nextNode st st1 cs1 h1
      have hnc : ¬ (node.Value = keyLinters ∨ node.Value = keyFormatters) := by
        intro hcon
        apply hk
        rcases hcon with hcon | hcon <;> simp [hcon, documentedKeys]
      obtain ⟨tl, htl, _⟩ := topLevelRedacted_eq_cons nextNode rest
      refine ⟨?_, ?_⟩
      · rw [topLevelRedacted, if_neg hnc, ← h2.2, hc]
      · rw [← h2.1, hg, ← h2.2, hc, htl, overviewPairs, if_neg hk]
        simp
    · rename_i hk
      have hk' : node.Value ∈ documentedKeys := by simpa using hk
      dsimp only at h
      rw [Outcome.bind_eq_ok] at h
      obtain ⟨⟨nn, sn⟩, hinner, h⟩ := h
      dsimp only at h
      rw [Outcome.bind_eq_ok] at h
      obtain ⟨snippet, _, h⟩ := h
      rw [Outcome.bind_eq_ok] at h
      obtain ⟨⟨st1, cs1⟩, h1, h2⟩ := h
      simp at h2
      generalize hst0 : LoopState.mk _ _ _ = st0 at h1
      obtain ⟨hc, hg⟩ := ih nn st0 st1 cs1 h1
      obtain ⟨tl, htl, _⟩ := topLevelRedacted_eq_cons nn rest
      have hnn : nn = (if node.Value = keyLinters ∨ node.Value = keyFormatters then
          { nextNode with Content := settingsRedacted node nextNode.Content } else nextNode) := by
        split at hinner
        · rename_i hcon
          rw [Outcome.bind_eq_ok] at hinner
          obtain ⟨⟨cs2, s2⟩, h3, h4⟩ := hinner
          simp at h4
          rw [if_pos hcon, ← h4.1, settingsLoop_children env e node _ _ (le_refl _) _ _ _ h3]
        · rename_i hcon
          simp at hinner
          rw [if_neg hcon, hinner.1]
      have hpair : st0.globalContent = st.globalContent ++ overviewPair env node nn := by
        rw [← hst0, hnn, overviewPair]
        by_cases hv : node.Value = "version"
        · have hcon : ¬ (node.Value = keyLinters ∨ node.Value = keyFormatters) := by
            rw [hv]; decide
          simp only [if_pos hv, if_neg hcon]
        · simp only [if_neg hv]
          split <;> rfl
      refine ⟨?_, ?_⟩
      · rw [topLevelRedacted, ← h2.2, hc, hnn]
        split <;> rfl
      · rw [← h2.1, hg, ← h2.2, hc, htl, overviewPairs, if_pos hk', hpair]
        simp

/-! ### Properties of the closed forms -/

theorem shallow_fields {a b : Node} (h : a.shallow = b.shallow) :
    a.Kind = b.Kind ∧ a.Style = b.Style ∧ a.Tag = b.Tag ∧ a.Value = b.Value := by
  have h1 := congrArg Node.Kind h
  have h2 := congrArg Node.Style h
  have h3 := congrArg Node.Tag h
  have h4 := congrArg Node.Value h
  exact ⟨h1, h2, h3, h4⟩

theorem shallow_with_content (y : Node) (cs : List Node) :
    ({ y with Content := cs } : Node).shallow = y.shallow := rfl

theorem settingsRedacted_congr {a b : Node} (h : a.shallow = b.shallow) :
    ∀ (n : Nat) (cs : List Node), cs.length ≤ n →
      settingsRedacted a cs = settingsRedacted b cs := by
  obtain ⟨hK, hS, hT, hV⟩ := shallow_fields h
  intro n
  induction n with
  | zero =>
    intro cs hn
    obtain rfl : cs = [] := List.length_eq_zero.mp (Nat.le_zero.mp hn)
    rfl
  | succ n ih =>
    intro cs hn
    match cs, hn with
    | [], _ => rfl
    | [c], _ => rfl
    | c :: v :: rest, hn =>
      rw [settingsRedacted, settingsRedacted]
      rw [ih (v :: rest) (by simpa using hn), ih rest (by simp at hn; omega), hK, hS, hT, hV]

theorem settingsRedacted_shallow (node : Node) :
    ∀ (n : Nat) (cs : List Node), cs.length ≤ n →
      (settingsRedacted node cs).map Node.shallow = cs.map Node.shallow := by
  intro n
  induction n with
  | zero =>
    intro cs hn
    obtain rfl : cs = [] := List.length_eq_zero.mp (Nat.le_zero.mp hn)
    rfl
  | succ n ih =>
    intro cs hn
    match cs, hn with
    | [], _ => rfl
    | [c], _ => rfl
    | c :: v :: rest, hn =>
      rw [settingsRedacted]
      split
      · rw [List.map_cons, ih (v :: rest) (by simpa using hn)]
        rfl
      · rw [List.map_cons, List.map_cons, ih rest (by simp at hn; omega)]
        rfl

theorem topLevelRedacted_shallow (rest : List Node) :
    ∀ node : Node, (topLevelRedacted node rest).map Node.shallow =
      (node :: rest).map Node.shallow := by
  induction rest with
  | nil => intro node; rfl
  | cons nextNode rest ih =>
    intro node
    rw [topLevelRedacted]
    split
    · rw [List.map_cons, ih]
      rfl
    · rw [List.map_cons, ih]
      rfl

/-- The redaction a child `y` undergoes when the child before it is `x`. -/
theorem topLevelRedacted_get (rest : List Node) :
    ∀ (node : Node) (j : Nat) (x y : Node),
      (node :: rest)[j]? = some x → rest[j]? = some y →
        (∃ x', (topLevelRedacted node rest)[j]? = some x' ∧ x'.shallow = x.shallow ∧
            (j = 0 → x' = x)) ∧
          (topLevelRedacted node rest)[j + 1]? =
            some (if x.Value = keyLinters ∨ x.Value = keyFormatters then
              { y with Content := settingsRedacted x y.Content } else y) := by
  induction rest with
  | nil => intro node j x y _ hy; simp at hy
  | cons nextNode rest ih =>
    intro node j x y hx hy
    cases j with
    | zero =>
      simp at hx hy
      subst hx hy
      rw [topLevelRedacted]
      split
      · obtain ⟨tl, htl, _⟩ := topLevelRedacted_eq_cons
          { nextNode with Content := settingsRedacted node nextNode.Content } rest
        simp [htl]
      · obtain ⟨tl, htl, _⟩ := topLevelRedacted_eq_cons nextNode rest
        simp [htl]
    | succ j =>
      simp only [List.getElem?_cons_succ] at hx hy
      rw [topLevelRedacted]
      have key : ∀ y0 : Node, y0.shallow = nextNode.shallow →
          (∃ x', (topLevelRedacted y0 rest)[j]? = some x' ∧ x'.shallow = x.shallow ∧
              (j + 1 = 0 → x' = x)) ∧
            (topLevelRedacted y0 rest)[j + 1]? =
              some (if x.Value = keyLinters ∨ x.Value = keyFormatters then
                { y with Content := settingsRedacted x y.Content } else y) := by
        intro y0 hy0
        cases j with
        | zero =>
          simp at hx
          subst hx
          obtain ⟨⟨x', hx', hs, _⟩, h2⟩ := ih y0 0 y0 y (by simp) hy
          refine ⟨⟨x', hx', hs.trans hy0, by simp⟩, ?_⟩
          rw [h2, (shallow_fields hy0).2.2.2,
            settingsRedacted_congr hy0 _ _ (le_refl _)]
        | succ j =>
          have hx2 : (y0 :: rest)[j + 1]? = some x := by simpa using hx
          obtain ⟨⟨x', hx', hs, _⟩, h2⟩ := ih y0 (j + 1) x y hx2 hy
          exact ⟨⟨x', hx', hs, by simp⟩, h2⟩
      split
      · simpa using key _ (shallow_with_content _ _)
      · simpa using key _ rfl

theorem overviewPair_length (env : Env) (x y : Node) : (overviewPair env x y).length = 2 := by
  unfold overviewPair
  split <;> rfl

theorem documentedBefore_zero (cs : List Node) : documentedBefore cs 0 = 0 := by
  simp [documentedBefore]

theorem documentedBefore_succ (a : Node) (cs : List Node) (j : Nat) :
    documentedBefore (a :: cs) (j + 1) =
      (if a.Value ∈ documentedKeys then 1 else 0) + documentedBefore cs j := by
  unfold documentedBefore
  rw [List.map_cons, List.take_succ_cons, List.filter_cons]
  split
  · rename_i h
    have h' : a.Value ∈ documentedKeys := by simpa using h
    rw [if_pos h', List.length_cons]
    omega
  · rename_i h
    have h' : a.Value ∉ documentedKeys := by simpa using h
    rw [if_neg h']
    omega

theorem documentedBefore_congr {cs cs' : List Node}
    (h : cs'.map Node.shallow = cs.map Node.shallow) (j : Nat) :
    documentedBefore cs' j = documentedBefore cs j := by
  have hv : cs'.map Node.Value = cs.map Node.Value := by
    have := congrArg (List.map Node.Value) h
    simpa [List.map_map, Function.comp_def, Node.shallow] using this
  unfold documentedBefore
  rw [hv]

/-- Where the pair of a documented child sits among the overview children. -/
theorem overviewPairs_drop (env : Env) :
    ∀ (cs : List Node) (j : Nat) (x y : Node),
      cs[j]? = some x → cs[j + 1]? = some y → x.Value ∈ documentedKeys →
        (overviewPairs env cs).drop (2 * documentedBefore cs j) =
          overviewPair env x y ++ overviewPairs env (cs.drop (j + 1)) := by
  intro cs
  induction cs with
  | nil => intro j x y hx; simp at hx
  | cons a cs ih =>
    intro j x y hx hy hk
    cases cs with
    | nil => simp at hy
    | cons b rest =>
      cases j with
      | zero =>
        simp at hx hy
        subst hx hy
        rw [documentedBefore_zero, overviewPairs, if_pos hk]
        simp
      | succ j =>
        simp only [List.getElem?_cons_succ] at hx hy
        have hrec := ih j x y hx (by simpa using hy) hk
        rw [documentedBefore_succ, overviewPairs]
        by_cases ha : a.Value ∈ documentedKeys
        · rw [if_pos ha, if_pos ha]
          have hl := overviewPair_length env a b
          have : 2 * (1 + documentedBefore (b :: rest) j) =
              (overviewPair env a b).length + 2 * documentedBefore (b :: rest) j := by omega
          rw [this, List.drop_append, hrec]
          simp
        · rw [if_neg ha, if_neg ha]
          simpa using hrec

theorem overviewPairs_get (env : Env) (cs : List Node) (j : Nat) (x y : Node)
    (hx : cs[j]? = some x) (hy : cs[j + 1]? = some y) (hk : x.Value ∈ documentedKeys) :
    (overviewPairs env cs)[2 * documentedBefore cs j]? = (overviewPair env x y)[0]? ∧
      (overviewPairs env cs)[2 * documentedBefore cs j + 1]? = (overviewPair env x y)[1]? := by
  have h := overviewPairs_drop env cs j x y hx hy hk
  have hl := overviewPair_length env x y
  constructor
  · have := congrArg (fun l => l[0]?) h
    simp only [List.getElem?_drop] at this
    rw [Nat.add_zero] at this
    rw [this, List.getElem?_append_left (by omega)]
  · have := congrArg (fun l => l[1]?) h
    simp only [List.getElem?_drop] at this
    rw [this, List.getElem?_append_left (by omega)]

theorem goQuote_documented (env : Env) (v : String) (h : v ∈ documentedKeys) :
    goQuote env v = "\"" ++ v ++ "\"" := by
  simp only [documentedKeys, List.mem_cons, List.mem_singleton, List.not_mem_nil, or_false] at h
  rcases h with h | h | h | h | h | h | h <;> subst h <;> rfl

/-- The state of the tree and of the overview after a run of the loop over
`root.Content` that ends normally. -/
theorem runTopLevelLoop_ok (env : Env) (e : ExampleSnippetsExtractor) (root : Node)
    (st : LoopState) (root' : Node)
    (h : runTopLevelLoop env e root = Outcome.ok (st, root')) :
    root'.shallow = root.shallow ∧
      root'.Content.map Node.shallow = root.Content.map Node.shallow ∧
      st.globalContent = overviewPairs env root'.Content ∧
      (∀ node rest, root.Content = node :: rest → root'.Content = topLevelRedacted node rest) := by
  unfold runTopLevelLoop at h
  split at h
  · rename_i hc
    simp at h
    obtain ⟨h1, h2⟩ := h
    subst h1 h2
    simp [hc, overviewPairs]
  · rename_i node rest hc
    rw [Outcome.bind_eq_ok] at h
    obtain ⟨⟨st1, cs1⟩, h1, h2⟩ := h
    simp at h2
    obtain ⟨h3, h4⟩ := topLevelLoop_children env e root rest node _ st1 cs1 h1
    obtain ⟨hst, hroot⟩ := h2
    subst hst hroot
    refine ⟨rfl, ?_, ?_, ?_⟩
    · simp only [hc, h3, topLevelRedacted_shallow]
    · simpa using h4
    · intro node' rest' hnr
      rw [hc] at hnr
      injection hnr with hn hr
      subst hn hr
      exact h3

theorem getElem?_of_map_shallow {cs cs' : List Node}
    (h : cs'.map Node.shallow = cs.map Node.shallow) {j : Nat} {x : Node}
    (hx : cs[j]? = some x) : ∃ x', cs'[j]? = some x' ∧ x'.shallow = x.shallow := by
  have h1 : (cs'.map Node.shallow)[j]? = some x.shallow := by
    rw [h, List.getElem?_map, hx]
    rfl
  rw [List.getElem?_map] at h1
  cases hc : cs'[j]? with
  | none => rw [hc] at h1; simp at h1
  | some x' =>
    rw [hc] at h1
    exact ⟨x', rfl, by simpa using h1⟩

/-- The overview entries of a documented child of the source root, in terms of
the source nodes. -/
theorem overview_at (env : Env) (e : ExampleSnippetsExtractor) (root : Node)
    (st : LoopState) (root' : Node)
    (h : runTopLevelLoop env e root = Outcome.ok (st, root'))
    (j : Nat) (k v : Node) (hk : root.Content[j]? = some k)
    (hv : root.Content[j + 1]? = some v) (hdoc : k.Value ∈ documentedKeys) :
    ∃ k' v', root'.Content[j]? = some k' ∧ root'.Content[j + 1]? = some v' ∧
      k'.shallow = k.shallow ∧
      v' = (if k.Value = keyLinters ∨ k.Value = keyFormatters then
        { v with Content := settingsRedacted k v.Content } else v) ∧
      st.globalContent[2 * documentedBefore root.Content j]? = (overviewPair env k' v')[0]? ∧
      st.globalContent[2 * documentedBefore root.Content j + 1]? =
        (overviewPair env k' v')[1]? := by
  obtain ⟨_, hsh, hov, hred⟩ := runTopLevelLoop_ok env e root st root' h
  obtain ⟨k', hk', hks⟩ := getElem?_of_map_shallow hsh hk
  cases hc : root.Content with
  | nil => rw [hc] at hk; simp at hk
  | cons node rest =>
    have hr := hred node rest hc
    rw [hc] at hk hv
    have hv2 : rest[j]? = some v := by simpa using hv
    obtain ⟨_, hget⟩ := topLevelRedacted_get rest node j k v hk hv2
    rw [← hr] at hget
    have hdoc' : k'.Value ∈ documentedKeys := by
      rw [(shallow_fields hks).2.2.2]; exact hdoc
    obtain ⟨h0, h1⟩ := overviewPairs_get env root'.Content j k' _ hk' hget hdoc'
    rw [documentedBefore_congr hsh, ← hov, hc] at h0 h1
    exact ⟨k', _, hk', hget, hks, rfl, h0, h1⟩

/-! ### The loops of `getSettingSections` -/

theorem join_cons (a : String) (l : List String) : String.join (a :: l) = a ++ String.join l := by
  apply String.ext
  simp [String.data_join]

/-- The text `sectionsLoop` appends over an even number of children when the
encoder succeeds on every section document: one block per pair, in order. -/
theorem sectionsLoop_ok (env : Env) (node nextNode : Node) (lintersDesc : DescMap)
    (render : Node → String) :
    ∀ (n : Nat) (cs : List Node), cs.length ≤ n → cs.length % 2 = 0 →
      (∀ p ∈ pairsOf cs, env.encode (sectionDocument node nextNode p.1 p.2) =
        Except.ok (render (sectionDocument node nextNode p.1 p.2))) →
      ∀ builder : String,
        sectionsLoop env node nextNode lintersDesc cs builder =
          Outcome.ok (builder ++ String.join ((pairsOf cs).map (fun p =>
            "### " ++ p.1.Value ++ "\n\n" ++ lintersDesc.get p.1.Value ++ "\n\n" ++
              "```yaml\n" ++ render (sectionDocument node nextNode p.1 p.2) ++ "```\n\n" ++
              "[" ++ span env "Back to the top" "<FaArrowUp />" ++ "](#" ++ listItemPrefix ++
              p.1.Value ++ ")\n\n\n"))) := by
  intro n
  induction n with
  | zero =>
    intro cs hn _ _ builder
    obtain rfl : cs = [] := List.length_eq_zero.mp (Nat.le_zero.mp hn)
    simp [sectionsLoop, pairsOf, String.join]
  | succ n ih =>
    intro cs hn heven henc builder
    match cs, hn, heven, henc with
    | [], _, _, _ => simp [sectionsLoop, pairsOf, String.join]
    | [c], _, heven, _ => simp at heven
    | name :: body :: rest, hn, heven, henc =>
      have h1 := henc (name, body) (by simp [pairsOf])
      have hrest := ih rest (by simp at hn; omega) (by simp at heven; omega)
        (fun p hp => henc p (by simp [pairsOf, hp]))
      rw [sectionsLoop]
      simp only [h1]
      rw [hrest, pairsOf, List.map_cons, join_cons]
      simp only [String.append_assoc]
      rfl

theorem sectionsLoop_encoded (env : Env) (node nextNode : Node) (lintersDesc : DescMap) :
    ∀ (n : Nat) (cs : List Node), cs.length ≤ n → ∀ (builder out : String),
      sectionsLoop env node nextNode lintersDesc cs builder = Outcome.ok out →
        ∀ p ∈ pairsOf cs, ∃ y,
          env.encode (sectionDocument node nextNode p.1 p.2) = Except.ok y := by
  intro n
  induction n with
  | zero =>
    intro cs hn builder out _ p hp
    obtain rfl : cs = [] := List.length_eq_zero.mp (Nat.le_zero.mp hn)
    simp [pairsOf] at hp
  | succ n ih =>
    intro cs hn builder out h p hp
    match cs, hn, h, hp with
    | [], _, _, hp => simp [pairsOf] at hp
    | [c], _, _, hp => simp [pairsOf] at hp
    | name :: body :: rest, hn, h, hp =>
      rw [sectionsLoop] at h
      simp only [] at h
      split at h
      · simp at h
      · rename_i y hy
        rw [pairsOf, List.mem_cons] at hp
        rcases hp with hp | hp
        · subst hp
          exact ⟨y, hy⟩
        · exact ih rest (by simp at hn; omega) _ out h p hp

theorem getSettingSections_encoded (env : Env) (e : ExampleSnippetsExtractor)
    (node nextNode : Node) (out : String)
    (h : getSettingSections env e node nextNode = Outcome.ok out) :
    ∀ p ∈ pairsOf nextNode.Content, ∃ y,
      env.encode (sectionDocument node nextNode p.1 p.2) = Except.ok y := by
  unfold getSettingSections at h
  rw [Outcome.bind_eq_ok] at h
  obtain ⟨linters, _, h⟩ := h
  rw [Outcome.bind_eq_ok] at h
  obtain ⟨lintersDesc, _, h⟩ := h
  exact sectionsLoop_encoded env node nextNode lintersDesc _ _ (le_refl _) _ _ h

theorem pairsOf_get :
    ∀ (n : Nat) (cs : List Node), cs.length ≤ n → ∀ (i : Nat) (p : Node × Node),
      (pairsOf cs)[i]? = some p → cs[2 * i]? = some p.1 ∧ cs[2 * i + 1]? = some p.2 := by
  intro n
  induction n with
  | zero =>
    intro cs hn i p hp
    obtain rfl : cs = [] := List.length_eq_zero.mp (Nat.le_zero.mp hn)
    simp [pairsOf] at hp
  | succ n ih =>
    intro cs hn i p hp
    match cs, hn, hp with
    | [], _, hp => simp [pairsOf] at hp
    | [c], _, hp => simp [pairsOf] at hp
    | k :: v :: rest, hn, hp =>
      rw [pairsOf] at hp
      cases i with
      | zero =>
        simp at hp
        subst hp
        simp
      | succ i =>
        simp only [List.getElem?_cons_succ] at hp
        have := ih rest (by simp at hn; omega) i p hp
        have e1 : 2 * (i + 1) = (2 * i + 1) + 1 := by omega
        rw [e1]
        simpa using this

/-! ### What the redaction changes and what it leaves alone -/

theorem settingsRedacted_head (node : Node) (cs : List Node) :
    (settingsRedacted node cs)[0]? = cs[0]? := by
  match cs with
  | [] => rfl
  | [c] => rfl
  | c :: v :: rest =>
    rw [settingsRedacted]
    split <;> simp

theorem settingsRedacted_after_other (node : Node) :
    ∀ (n : Nat) (cs : List Node), cs.length ≤ n → ∀ (i : Nat) (c : Node),
      cs[i]? = some c → c.Value ≠ keySettings →
        (settingsRedacted node cs)[i + 1]? = cs[i + 1]? := by
  intro n
  induction n with
  | zero =>
    intro cs hn i c hc
    obtain rfl : cs = [] := List.length_eq_zero.mp (Nat.le_zero.mp hn)
    simp at hc
  | succ n ih =>
    intro cs hn i c hc hne
    match cs, hn, hc with
    | [], _, hc => simp at hc
    | [a], _, _ => simp [settingsRedacted]
    | a :: v :: rest, hn, hc =>
      rw [settingsRedacted]
      split
      · cases i with
        | zero =>
          simp only [List.getElem?_cons_succ]
          rw [settingsRedacted_head]
        | succ i =>
          rw [List.getElem?_cons_succ] at hc
          rw [List.getElem?_cons_succ, List.getElem?_cons_succ]
          exact ih (v :: rest) (by simpa using hn) i c hc hne
      · rename_i ha
        cases i with
        | zero =>
          simp at hc
          subst hc
          exact absurd hne ha
        | succ i =>
          cases i with
          | zero =>
            simp only [List.getElem?_cons_succ]
            rw [settingsRedacted_head]
          | succ i =>
            simp only [List.getElem?_cons_succ] at hc ⊢
            exact ih rest (by simp at hn; omega) i c hc hne

theorem settingsRedacted_first (node : Node) (pre : List Node) (sk sv : Node)
    (post : List Node) (hpre : ∀ c ∈ pre, c.Value ≠ keySettings)
    (hsk : sk.Value = keySettings) :
    (settingsRedacted node (pre ++ sk :: sv :: post))[pre.length + 1]? = some
      { sv with
        Content := [
          { HeadComment :=
              "See the dedicated \"" ++ node.Value ++ "." ++ sk.Value ++
                "\" documentation section."
            Kind := node.Kind
            Style := node.Style
            Tag := node.Tag
            Value := "option"
            Content := [] },
          { Kind := node.Kind
            Style := node.Style
            Tag := node.Tag
            Value := "value"
            Content := [] } ] } := by
  induction pre with
  | nil =>
    simp only [List.nil_append, List.length_nil, Nat.zero_add]
    rw [settingsRedacted, if_neg (by simpa using hsk)]
    simp
  | cons a pre ih =>
    have ha : a.Value ≠ keySettings := hpre a (by simp)
    have ih' := ih (fun c hc => hpre c (by simp [hc]))
    cases pre with
    | nil =>
      simp only [List.cons_append, List.nil_append, List.length_cons, List.length_nil] at ih' ⊢
      rw [settingsRedacted, if_pos ha]
      simpa using ih'
    | cons b pre =>
      simp only [List.cons_append, List.length_cons] at ih' ⊢
      rw [settingsRedacted, if_pos ha]
      simpa using ih'

/-- The children of the root after the loop, child by child. -/
theorem root_children_after (env : Env) (e : ExampleSnippetsExtractor) (root : Node)
    (st : LoopState) (root' : Node)
    (h : runTopLevelLoop env e root = Outcome.ok (st, root')) :
    root'.Content[0]? = root.Content[0]? ∧
      ∀ (j : Nat) (x y : Node), root.Content[j]? = some x → root.Content[j + 1]? = some y →
        root'.Content[j + 1]? =
          some (if x.Value = keyLinters ∨ x.Value = keyFormatters then
            { y with Content := settingsRedacted x y.Content } else y) := by
  obtain ⟨_, hsh, _, hred⟩ := runTopLevelLoop_ok env e root st root' h
  cases hc : root.Content with
  | nil =>
    have : root'.Content = [] := by
      have := congrArg List.length hsh
      rw [hc] at this
      simpa using this
    rw [this]
    exact ⟨rfl, fun j x y hx => by simp at hx⟩
  | cons node rest =>
    have hr := hred node rest hc
    obtain ⟨tl, htl, _⟩ := topLevelRedacted_eq_cons node rest
    refine ⟨by rw [hr, htl]; simp, ?_⟩
    intro j x y hx hy
    have hy2 : rest[j]? = some y := by simpa using hy
    rw [hr]
    exact (topLevelRedacted_get rest node j x y hx hy2).2

/-! ### Errors and the nodes handed to the encoder -/

theorem marshallSnippet_eq_ok (env : Env) (node : Node) (s : String)
    (h : marshallSnippet env node = Outcome.ok s) : ∃ y, env.encode node = Except.ok y := by
  unfold marshallSnippet at h
  cases hy : env.encode node with
  | error err => rw [hy] at h; simp at h
  | ok y => exact ⟨y, rfl⟩

theorem marshallSnippet_eq_error (env : Env) (node : Node) (err : String)
    (h : marshallSnippet env node = Outcome.error err) : env.encode node = Except.error err := by
  unfold marshallSnippet at h
  cases hy : env.encode node with
  | error err' =>
    rw [hy] at h
    simp at h
    rw [h]
  | ok y => rw [hy] at h; simp at h

theorem formatDesc_ne_error (env : Env) (desc err : String) :
    formatDesc env desc ≠ Outcome.error err := by
  unfold formatDesc
  cases desc.toList with
  | nil => simp
  | cons c tl => simp

theorem fillLintersDesc_ne_error (env : Env) (err : String) :
    ∀ (linters : List LinterWrapper) (m : DescMap),
      fillLintersDesc env linters m ≠ Outcome.error err := by
  intro linters
  induction linters with
  | nil => intro m; simp [fillLintersDesc]
  | cons lc rest ih =>
    intro m
    rw [fillLintersDesc]
    split
    · exact ih m
    · intro h
      rw [Outcome.bind_eq_error] at h
      rcases h with h | ⟨d, _, h⟩
      · exact formatDesc_ne_error env _ err h
      · exact ih _ h

theorem sectionsLoop_error (env : Env) (node nextNode : Node) (lintersDesc : DescMap)
    (err : String) :
    ∀ (n : Nat) (cs : List Node), cs.length ≤ n → ∀ (builder : String),
      sectionsLoop env node nextNode lintersDesc cs builder = Outcome.error err →
        ∃ p ∈ pairsOf cs,
          env.encode (sectionDocument node nextNode p.1 p.2) = Except.error err := by
  intro n
  induction n with
  | zero =>
    intro cs hn builder h
    obtain rfl : cs = [] := List.length_eq_zero.mp (Nat.le_zero.mp hn)
    simp [sectionsLoop] at h
  | succ n ih =>
    intro cs hn builder h
    match cs, hn, h with
    | [], _, h => simp [sectionsLoop] at h
    | [c], _, h => simp [sectionsLoop] at h
    | name :: body :: rest, hn, h =>
      rw [sectionsLoop] at h
      simp only [] at h
      split at h
      · rename_i err' hy
        simp at h
        exact ⟨(name, body), by simp [pairsOf], by rw [hy, h]⟩
      · obtain ⟨p, hp, hpe⟩ := ih rest (by simp at hn; omega) _ h
        exact ⟨p, by simp [pairsOf, hp], hpe⟩

theorem getSettingSections_error (env : Env) (e : ExampleSnippetsExtractor)
    (node nextNode : Node) (err : String)
    (h : getSettingSections env e node nextNode = Outcome.error err) :
    (∃ path, env.readJSONFile path = Except.error err) ∨
      ∃ n ∈ sectionDocuments node nextNode, env.encode n = Except.error err := by
  unfold getSettingSections at h
  rw [Outcome.bind_eq_error] at h
  rcases h with h | ⟨linters, _, h⟩
  · left
    refine ⟨filepathJoin e.assetsPath (node.Value ++ "-info.json"), ?_⟩
    cases hr : env.readJSONFile (filepathJoin e.assetsPath (node.Value ++ "-info.json")) with
    | error err' =>
      rw [hr] at h
      simp [Outcome.ofExcept] at h
      rw [h]
    | ok l => rw [hr] at h; simp [Outcome.ofExcept] at h
  · rw [Outcome.bind_eq_error] at h
    rcases h with h | ⟨lintersDesc, _, h⟩
    · exact absurd h (fillLintersDesc_ne_error env err _ _)
    · right
      obtain ⟨p, hp, hpe⟩ := sectionsLoop_error env node nextNode lintersDesc err _ _
        (le_refl _) _ h
      exact ⟨_, List.mem_map.mpr ⟨p, hp, rfl⟩, hpe⟩

theorem getSettingSections_ok (env : Env) (e : ExampleSnippetsExtractor)
    (node nextNode : Node) (out : String)
    (h : getSettingSections env e node nextNode = Outcome.ok out) :
    ∀ n ∈ sectionDocuments node nextNode, ∃ y, env.encode n = Except.ok y := by
  intro n hn
  obtain ⟨p, hp, rfl⟩ := List.mem_map.mp hn
  exact getSettingSections_encoded env e node nextNode out h p hp

theorem settingsLoop_encoded (env : Env) (e : ExampleSnippetsExtractor) (node : Node) :
    ∀ (n : Nat) (cs : List Node), cs.length ≤ n → ∀ (s : SettingSnippets),
      (∀ r, settingsLoop env e node cs s = Outcome.ok r →
        ∀ d ∈ settingsEncoded node cs, ∃ y, env.encode d = Except.ok y) ∧
      (∀ err, settingsLoop env e node cs s = Outcome.error err →
        (∃ path, env.readJSONFile path = Except.error err) ∨
          ∃ d ∈ settingsEncoded node cs, env.encode d = Except.error err) := by
  intro n
  induction n with
  | zero =>
    intro cs hn s
    obtain rfl : cs = [] := List.length_eq_zero.mp (Nat.le_zero.mp hn)
    simp [settingsLoop, settingsEncoded]
  | succ n ih =>
    intro cs hn s
    match cs, hn with
    | [], _ => simp [settingsLoop, settingsEncoded]
    | [c], _ =>
      rw [settingsLoop]
      split <;> simp [settingsEncoded]
    | c :: v :: rest, hn =>
      rw [settingsLoop, settingsEncoded]
      split
      · rename_i hc
        obtain ⟨ih1, ih2⟩ := ih (v :: rest) (by simpa using hn) s
        constructor
        · intro r h
          rw [Outcome.bind_eq_ok] at h
          obtain ⟨r1, h1, _⟩ := h
          exact ih1 r1 h1
        · intro err h
          rw [Outcome.bind_eq_error] at h
          rcases h with h | ⟨r1, _, h⟩
          · exact ih2 err h
          · simp at h
      · rename_i hc
        constructor
        · intro r h
          rw [Outcome.bind_eq_ok] at h
          obtain ⟨ss, hss, h⟩ := h
          rw [Outcome.bind_eq_ok] at h
          obtain ⟨r1, h1, _⟩ := h
          intro d hd
          rw [List.mem_append] at hd
          rcases hd with hd | hd
          · exact getSettingSections_ok env e node v ss hss d hd
          · exact (ih rest (by simp at hn; omega) _).1 r1 h1 d hd
        · intro err h
          rw [Outcome.bind_eq_error] at h
          rcases h with h | ⟨ss, _, h⟩
          · rcases getSettingSections_error env e node v err h with hr | ⟨d, hd, hde⟩
            · exact Or.inl hr
            · exact Or.inr ⟨d, List.mem_append.mpr (Or.inl hd), hde⟩
          · rw [Outcome.bind_eq_error] at h
            rcases h with h | ⟨r1, _, h⟩
            · rcases (ih rest (by simp at hn; omega) _).2 err h with hr | ⟨d, hd, hde⟩
              · exact Or.inl hr
              · exact Or.inr ⟨d, List.mem_append.mpr (Or.inr hd), hde⟩
            · simp at h

theorem topLevelLoop_encoded (env : Env) (e : ExampleSnippetsExtractor) (root : Node) :
    ∀ (rest : List Node) (node : Node) (st : LoopState),
      (∀ r, topLevelLoop env e root node rest st = Outcome.ok r →
        ∀ d ∈ topLevelEncoded root node rest, ∃ y, env.encode d = Except.ok y) ∧
      (∀ err, topLevelLoop env e root node rest st = Outcome.error err →
        (∃ path, env.readJSONFile path = Except.error err) ∨
          ∃ d ∈ topLevelEncoded root node rest, env.encode d = Except.error err) := by
  intro rest
  induction rest with
  | nil =>
    intro node st
    rw [topLevelLoop]
    split <;> simp [topLevelEncoded]
  | cons nextNode rest ih =>
    intro node st
    rw [topLevelLoop, topLevelEncoded]
    split
    · rename_i hk
      obtain ⟨ih1, ih2⟩ := ih nextNode st
      constructor
      · intro r h
        rw [Outcome.bind_eq_ok] at h
        obtain ⟨r1, h1, _⟩ := h
        exact ih1 r1 h1
      · intro err h
        rw [Outcome.bind_eq_error] at h
        rcases h with h | ⟨r1, _, h⟩
        · exact ih2 err h
        · simp at h
    · rename_i hk
      dsimp only
      by_cases hcont : node.Value = keyLinters ∨ node.Value = keyFormatters
      · simp only [if_pos hcont]
        have hs := settingsLoop_encoded env e node _ nextNode.Content (le_refl _) st.snippets
        constructor
        · intro r h
          rw [Outcome.bind_eq_ok] at h
          obtain ⟨⟨nn, sn⟩, hinner, h⟩ := h
          rw [Outcome.bind_eq_ok] at hinner
          obtain ⟨⟨cs2, s2⟩, h3, h4⟩ := hinner
          simp at h4
          have hcs := settingsLoop_children env e node _ _ (le_refl _) _ _ _ h3
          obtain ⟨hnn, _⟩ := h4
          subst hnn hcs
          dsimp only at h
          rw [Outcome.bind_eq_ok] at h
          obtain ⟨snippet, hsn, h⟩ := h
          rw [Outcome.bind_eq_ok] at h
          obtain ⟨r1, h1, _⟩ := h
          intro d hd
          rw [List.mem_append, List.mem_cons] at hd
          rcases hd with hd | hd | hd
          · exact hs.1 _ h3 d hd
          · rw [hd]
            exact marshallSnippet_eq_ok env _ snippet hsn
          · exact (ih _ _).1 r1 h1 d hd
        · intro err h
          rw [Outcome.bind_eq_error] at h
          rcases h with h | ⟨⟨nn, sn⟩, hinner, h⟩
          · rw [Outcome.bind_eq_error] at h
            rcases h with h | ⟨r2, _, h⟩
            · rcases hs.2 err h with hr | ⟨d, hd, hde⟩
              · exact Or.inl hr
              · exact Or.inr ⟨d, List.mem_append.mpr (Or.inl hd), hde⟩
            · simp at h
          · rw [Outcome.bind_eq_ok] at hinner
            obtain ⟨⟨cs2, s2⟩, h3, h4⟩ := hinner
            simp at h4
            have hcs := settingsLoop_children env e node _ _ (le_refl _) _ _ _ h3
            obtain ⟨hnn, _⟩ := h4
            subst hnn hcs
            dsimp only at h
            rw [Outcome.bind_eq_error] at h
            rcases h with h | ⟨snippet, _, h⟩
            · exact Or.inr ⟨_, List.mem_append.mpr (Or.inr (List.mem_cons_self _ _)),
                marshallSnippet_eq_error env _ err h⟩
            · rw [Outcome.bind_eq_error] at h
              rcases h with h | ⟨r1, _, h⟩
              · rcases (ih _ _).2 err h with hr | ⟨d, hd, hde⟩
                · exact Or.inl hr
                · exact Or.inr ⟨d, List.mem_append.mpr
                    (Or.inr (List.mem_cons_of_mem _ hd)), hde⟩
              · simp at h
      · simp only [if_neg hcont, Outcome.ok_bind]
        constructor
        · intro r h
          rw [Outcome.bind_eq_ok] at h
          obtain ⟨snippet, hsn, h⟩ := h
          rw [Outcome.bind_eq_ok] at h
          obtain ⟨r1, h1, _⟩ := h
          intro d hd
          rw [List.mem_cons] at hd
          rcases hd with hd | hd
          · rw [hd]
            exact marshallSnippet_eq_ok env _ snippet hsn
          · exact (ih _ _).1 r1 h1 d hd
        · intro err h
          rw [Outcome.bind_eq_error] at h
          rcases h with h | ⟨snippet, _, h⟩
          · exact Or.inr ⟨_, List.mem_cons_self _ _, marshallSnippet_eq_error env _ err h⟩
          · rw [Outcome.bind_eq_error] at h
            rcases h with h | ⟨r1, _, h⟩
            · rcases (ih _ _).2 err h with hr | ⟨d, hd, hde⟩
              · exact Or.inl hr
              · exact Or.inr ⟨d, List.mem_cons_of_mem _ hd, hde⟩
            · simp at h

theorem extractExampleSnippets_encoded (env : Env) (e : ExampleSnippetsExtractor)
    (reference : String) (data root : Node) (tl : List Node)
    (hparse : env.unmarshal reference = Except.ok data) (hroot : data.Content = root :: tl) :
    (∀ s, extractExampleSnippets env e reference = Outcome.ok s →
        ∀ d ∈ encodedNodes env root, ∃ y, env.encode d = Except.ok y) ∧
      (∀ err, extractExampleSnippets env e reference = Outcome.error err →
        (∃ path, env.readJSONFile path = Except.error err) ∨
          ∃ d ∈ encodedNodes env root, env.encode d = Except.error err) := by
  unfold extractExampleSnippets
  simp only [hparse, hroot]
  unfold encodedNodes
  cases hc : root.Content with
  | nil =>
    have hrun : runTopLevelLoop env e root = Outcome.ok ({}, root) := by
      unfold runTopLevelLoop
      rw [hc]
    rw [hrun]
    simp only [Outcome.ok_bind, List.mem_singleton]
    constructor
    · intro s h d hd
      rw [Outcome.bind_eq_ok] at h
      obtain ⟨ov, hov, _⟩ := h
      rw [hd]
      exact marshallSnippet_eq_ok env _ ov hov
    · intro err h
      rw [Outcome.bind_eq_error] at h
      rcases h with h | ⟨ov, _, h⟩
      · exact Or.inr ⟨_, rfl, marshallSnippet_eq_error env _ err h⟩
      · simp at h
  | cons node rest =>
    have hrun : runTopLevelLoop env e root =
        (topLevelLoop env e root node rest {} >>= fun r =>
          Outcome.ok (r.1, { root with Content := r.2 })) := by
      unfold runTopLevelLoop
      rw [hc]
    rw [hrun]
    have henc := topLevelLoop_encoded env e root rest node {}
    constructor
    · intro s h d hd
      rw [Outcome.bind_eq_ok] at h
      obtain ⟨⟨st, root'⟩, h1, h⟩ := h
      rw [Outcome.bind_eq_ok] at h1
      obtain ⟨⟨st1, cs1⟩, h2, h3⟩ := h1
      simp at h3
      obtain ⟨hst, _⟩ := h3
      subst hst
      obtain ⟨hcs, hg⟩ := topLevelLoop_children env e root rest node _ st1 cs1 h2
      dsimp only at h
      rw [Outcome.bind_eq_ok] at h
      obtain ⟨ov, hov, _⟩ := h
      rw [List.mem_append, List.mem_singleton] at hd
      rcases hd with hd | hd
      · exact henc.1 _ h2 d hd
      · rw [hd, ← hcs]
        have hg' : st1.globalContent = overviewPairs env cs1 := by simpa using hg
        rw [← hg']
        exact marshallSnippet_eq_ok env _ ov hov
    · intro err h
      rw [Outcome.bind_eq_error] at h
      rcases h with h | ⟨⟨st, root'⟩, h1, h⟩
      · rw [Outcome.bind_eq_error] at h
        rcases h with h | ⟨r, _, h⟩
        · rcases henc.2 err h with hr | ⟨d, hd, hde⟩
          · exact Or.inl hr
          · exact Or.inr ⟨d, List.mem_append.mpr (Or.inl hd), hde⟩
        · simp at h
      · rw [Outcome.bind_eq_ok] at h1
        obtain ⟨⟨st1, cs1⟩, h2, h3⟩ := h1
        simp at h3
        obtain ⟨hst, _⟩ := h3
        subst hst
        obtain ⟨hcs, hg⟩ := topLevelLoop_children env e root rest node _ st1 cs1 h2
        dsimp only at h
        rw [Outcome.bind_eq_error] at h
        rcases h with h | ⟨ov, _, h⟩
        · have hg' : st1.globalContent = overviewPairs env cs1 := by simpa using hg
          refine Or.inr ⟨_, List.mem_append.mpr (Or.inr (List.mem_singleton.mpr rfl)), ?_⟩
          rw [← hcs, ← hg']
          exact marshallSnippet_eq_error env _ err h
        · simp at h

/-- The nodes encoded for the sample document, by the values of their
children: the per-key section of `run`, the two section documents and the
per-key section of `linters`, the per-key section of `version`, the overview. -/
theorem encodedNodes_sample :
    (encodedNodes (sampleEnv sampleDocument sampleRecords) sampleDocument).map
        (fun d => d.Content.map Node.Value) =
      [["run", ""], ["linters", ""], ["linters", ""], ["linters", ""], ["version", "2"],
        ["run", "", "linters", "", "version", "2"]] := by
  decide

/-! ### Documents whose values are never mistaken for keys -/

theorem overviewPair_keyNames (env : Env) (x y : Node) (tl : List Node) :
    keyNames (overviewPair env x y ++ tl) = x.Value :: keyNames tl := by
  unfold overviewPair
  split <;> simp [keyNames]

/-- On children that alternate keys and values, with no value named like a
documented key, the overview keys are the documented keys in source order. -/
theorem overviewPairs_keyNames (env : Env) :
    ∀ (n : Nat) (cs : List Node), cs.length ≤ n →
      (∀ p ∈ pairsOf cs, p.2.Value ∉ documentedKeys) → cs.length % 2 = 0 →
        keyNames (overviewPairs env cs) =
          ((pairsOf cs).map (fun p => p.1.Value)).filter
            (fun v => decide (v ∈ documentedKeys)) := by
  intro n
  induction n with
  | zero =>
    intro cs hn _ _
    obtain rfl : cs = [] := List.length_eq_zero.mp (Nat.le_zero.mp hn)
    rfl
  | succ n ih =>
    intro cs hn hval heven
    match cs, hn, hval, heven with
    | [], _, _, _ => rfl
    | [c], _, _, heven => simp at heven
    | k :: v :: rest, hn, hval, heven =>
      have hv : v.Value ∉ documentedKeys := hval (k, v) (by simp [pairsOf])
      have hrest := ih rest (by simp at hn; omega)
        (fun p hp => hval p (by simp [pairsOf, hp])) (by simp at heven; omega)
      have hskip : overviewPairs env (v :: rest) = overviewPairs env rest := by
        cases rest with
        | nil => rfl
        | cons k2 r2 => rw [overviewPairs, if_neg hv]; rfl
      rw [overviewPairs, hskip, pairsOf, List.map_cons, List.filter_cons]
      by_cases hk : k.Value ∈ documentedKeys
      · rw [if_pos hk, overviewPair_keyNames, hrest]
        simp [hk]
      · rw [if_neg hk, List.nil_append, hrest]
        simp [hk]

theorem pairsOf_map_shallow :
    ∀ (n : Nat) (cs cs' : List Node), cs.length ≤ n →
      cs'.map Node.shallow = cs.map Node.shallow →
        (pairsOf cs').map (fun p => (p.1.Value, p.2.Value)) =
          (pairsOf cs).map (fun p => (p.1.Value, p.2.Value)) := by
  intro n
  induction n with
  | zero =>
    intro cs cs' hn h
    obtain rfl : cs = [] := List.length_eq_zero.mp (Nat.le_zero.mp hn)
    obtain rfl : cs' = [] := by simpa using h
    rfl
  | succ n ih =>
    intro cs cs' hn h
    match cs, cs', hn, h with
    | [], [], _, _ => rfl
    | [], _ :: _, _, h => simp at h
    | _ :: _, [], _, h => simp at h
    | [c], [c'], _, _ => rfl
    | [c], _ :: _ :: _, _, h => simp at h
    | _ :: _ :: _, [c'], _, h => simp at h
    | k :: v :: rest, k' :: v' :: rest', hn, h =>
      simp only [List.map_cons, List.cons.injEq] at h
      obtain ⟨hk, hv, hr⟩ := h
      rw [pairsOf, pairsOf, List.map_cons, List.map_cons,
        ih rest rest' (by simp at hn; omega) hr,
        (shallow_fields hk).2.2.2, (shallow_fields hv).2.2.2]

/-- The overview keys of a document without stray values: when the children of
the root alternate keys and values and no value is named like a documented
key, a run of the loop that ends normally leaves as overview keys exactly the
documented keys of the root, in their order. -/
theorem overview_keys_without_stray_values (env : Env) (e : ExampleSnippetsExtractor)
    (root : Node) (st : LoopState) (root' : Node)
    (h : runTopLevelLoop env e root = Outcome.ok (st, root'))
    (heven : root.Content.length % 2 = 0)
    (hval : ∀ p ∈ pairsOf root.Content, p.2.Value ∉ documentedKeys) :
    keyNames st.globalContent =
      ((pairsOf root.Content).map (fun p => p.1.Value)).filter
        (fun v => decide (v ∈ documentedKeys)) := by
  obtain ⟨_, hsh, hov, _⟩ := runTopLevelLoop_ok env e root st root' h
  have hp := pairsOf_map_shallow _ root.Content root'.Content (le_refl _) hsh
  have hlen : root'.Content.length = root.Content.length := by
    simpa using congrArg List.length hsh
  have h1 : (pairsOf root'.Content).map (fun p => p.1.Value) =
      (pairsOf root.Content).map (fun p => p.1.Value) := by
    simpa [List.map_map, Function.comp_def] using congrArg (List.map Prod.fst) hp
  have h2 : (pairsOf root'.Content).map (fun p => p.2.Value) =
      (pairsOf root.Content).map (fun p => p.2.Value) := by
    simpa [List.map_map, Function.comp_def] using congrArg (List.map Prod.snd) hp
  have hval' : ∀ p ∈ pairsOf root'.Content, p.2.Value ∉ documentedKeys := by
    intro p hp'
    have hm : p.2.Value ∈ (pairsOf root'.Content).map (fun p => p.2.Value) :=
      List.mem_map.mpr ⟨p, hp', rfl⟩
    rw [h2] at hm
    obtain ⟨q, hq, hqv⟩ := List.mem_map.mp hm
    rw [← hqv]
    exact hval q hq
  rw [hov, overviewPairs_keyNames env _ _ (le_refl _) hval' (by rw [hlen]; exact heven), h1]

/-! ### The formatters output without a `settings` child -/

theorem settingsLoop_formatters (env : Env) (e : ExampleSnippetsExtractor) (node : Node) :
    ∀ (n : Nat) (cs : List Node), cs.length ≤ n →
      ∀ (s : SettingSnippets) (cs' : List Node) (s' : SettingSnippets),
        settingsLoop env e node cs s = Outcome.ok (cs', s') →
        (node.Value ≠ keyFormatters ∨ ∀ c ∈ cs, c.Value ≠ keySettings) →
          s'.FormattersSettings = s.FormattersSettings := by
  intro n
  induction n with
  | zero =>
    intro cs hn s cs' s' h _
    obtain rfl : cs = [] := List.length_eq_zero.mp (Nat.le_zero.mp hn)
    simp [settingsLoop] at h
    rw [h.2]
  | succ n ih =>
    intro cs hn s cs' s' h hno
    match cs, hn, h, hno with
    | [], _, h, _ =>
      simp [settingsLoop] at h
      rw [h.2]
    | [c], _, h, _ =>
      rw [settingsLoop] at h
      split at h
      · simp at h
        rw [h.2]
      · simp at h
    | c :: v :: rest, hn, h, hno =>
      rw [settingsLoop] at h
      split at h
      · rw [Outcome.bind_eq_ok] at h
        obtain ⟨⟨cs1, s1⟩, h1, h2⟩ := h
        simp at h2
        rw [← h2.2]
        refine ih (v :: rest) (by simpa using hn) s cs1 s1 h1 ?_
        rcases hno with hno | hno
        · exact Or.inl hno
        · exact Or.inr (fun c' hc' => hno c' (by simp at hc' ⊢; tauto))
      · rename_i hc
        have hcs : c.Value = keySettings := by simpa using hc
        rcases hno with hno | hno
        · rw [Outcome.bind_eq_ok] at h
          obtain ⟨ss, _, h⟩ := h
          rw [Outcome.bind_eq_ok] at h
          obtain ⟨⟨cs1, s1⟩, h1, h2⟩ := h
          simp at h2
          rw [← h2.2, ih rest (by simp at hn; omega) _ cs1 s1 h1 (Or.inl hno)]
          split
          · rfl
          · rfl
        · exact absurd hcs (hno c (by simp))

theorem topLevelLoop_formatters (env : Env) (e : ExampleSnippetsExtractor) (root : Node) :
    ∀ (rest : List Node) (node : Node) (st st' : LoopState) (cs' : List Node),
      topLevelLoop env e root node rest st = Outcome.ok (st', cs') →
      (∀ (j : Nat) (x y : Node), (node :: rest)[j]? = some x → rest[j]? = some y →
        x.Value = keyFormatters → ∀ c ∈ y.Content, c.Value ≠ keySettings) →
        st'.snippets.FormattersSettings = st.snippets.FormattersSettings := by
  intro rest
  induction rest with
  | nil =>
    intro node st st' cs' h _
    rw [topLevelLoop] at h
    split at h
    · simp at h
      rw [h.1]
    · simp at h
  | cons nextNode rest ih =>
    intro node st st' cs' h hno
    have hstep : ∀ nn : Node, nn.Value = nextNode.Value →
        ∀ (j : Nat) (x y : Node), (nn :: rest)[j]? = some x → rest[j]? = some y →
          x.Value = keyFormatters → ∀ c ∈ y.Content, c.Value ≠ keySettings := by
      intro nn hnn j x y hx hy hxv
      cases j with
      | zero =>
        simp at hx
        subst hx
        exact hno 1 nextNode y (by simp) (by simpa using hy) (by rw [← hnn]; exact hxv)
      | succ j =>
        exact hno (j + 2) x y (by simpa using hx) (by simpa using hy) hxv
    rw [topLevelLoop] at h
    split at h
    · rw [Outcome.bind_eq_ok] at h
      obtain ⟨⟨st1, cs1⟩, h1, h2⟩ := h
      simp at h2
      rw [← h2.1]
      exact ih nextNode st st1 cs1 h1 (hstep nextNode rfl)
    · dsimp only at h
      rw [Outcome.bind_eq_ok] at h
      obtain ⟨⟨nn, sn⟩, hinner, h⟩ := h
      dsimp only at h
      rw [Outcome.bind_eq_ok] at h
      obtain ⟨snippet, _, h⟩ := h
      rw [Outcome.bind_eq_ok] at h
      obtain ⟨⟨st1, cs1⟩, h1, h2⟩ := h
      simp at h2
      have hboth : nn.Value = nextNode.Value ∧
          sn.FormattersSettings = st.snippets.FormattersSettings := by
        split at hinner
        · rw [Outcome.bind_eq_ok] at hinner
          obtain ⟨⟨cs2, s2⟩, h3, h4⟩ := hinner
          simp at h4
          refine ⟨by rw [← h4.1], ?_⟩
          rw [← h4.2]
          refine settingsLoop_formatters env e node _ _ (le_refl _) _ _ _ h3 ?_
          by_cases hf : node.Value = keyFormatters
          · exact Or.inr (hno 0 node nextNode (by simp) (by simp) hf)
          · exact Or.inl hf
        · simp at hinner
          exact ⟨by rw [hinner.1], by rw [hinner.2]⟩
      rw [← h2.1, ih nn _ st1 cs1 h1 (hstep nn hboth.1)]
      exact hboth.2

/-- The formatters output of a document in which no node valued `formatters`
is followed by a node with a child valued `settings`: a call that returns
leaves `FormattersSettings` empty. -/
theorem formatters_settings_empty (env : Env) (e : ExampleSnippetsExtractor)
    (reference : String) (data root : Node) (tl : List Node)
    (hparse : env.unmarshal reference = Except.ok data) (hroot : data.Content = root :: tl)
    (hno : ∀ (j : Nat) (x y : Node), root.Content[j]? = some x →
      root.Content[j + 1]? = some y → x.Value = keyFormatters →
        ∀ c ∈ y.Content, c.Value ≠ keySettings)
    (s : SettingSnippets) (h : extractExampleSnippets env e reference = Outcome.ok s) :
    s.FormattersSettings = "" := by
  unfold extractExampleSnippets at h
  simp only [hparse, hroot] at h
  rw [Outcome.bind_eq_ok] at h
  obtain ⟨⟨st, root'⟩, hrun, h⟩ := h
  dsimp only at h
  rw [Outcome.bind_eq_ok] at h
  obtain ⟨ov, _, h⟩ := h
  simp at h
  rw [← h]
  show st.snippets.FormattersSettings = ""
  unfold runTopLevelLoop at hrun
  split at hrun
  · simp at hrun
    rw [← hrun.1]
  · rename_i node rest hc
    rw [Outcome.bind_eq_ok] at hrun
    obtain ⟨⟨st1, cs1⟩, h1, h2⟩ := hrun
    simp at h2
    rw [← h2.1]
    rw [hc] at hno
    exact topLevelLoop_formatters env e root rest node _ st1 cs1 h1
      (fun j x y hx hy => hno j x y hx (by simpa using hy))

/-! ### `formatDesc` -/

theorem toUpper_period (env : Env) : toUpper env '.' = '.' := by
  rfl

theorem flatMap_no_newline (l : List Char) :
    '\n' ∉ l.flatMap (fun c => if c = '\n' then "<br/>".toList else [c]) := by
  intro h
  rw [List.mem_flatMap] at h
  obtain ⟨c, _, hc⟩ := h
  by_cases hn : c = '\n'
  · rw [if_pos hn] at hc
    revert hc
    decide
  · rw [if_neg hn] at hc
    simp at hc
    exact hn hc.symm

theorem replaceNewlines_getLast (l : List Char) (h : l.getLast? = some '.') :
    (replaceNewlines (String.mk l)).toList.getLast? = some '.' := by
  obtain ⟨init, rfl⟩ : ∃ init, l = init ++ ['.'] := by
    rcases List.eq_nil_or_concat l with hnil | ⟨init, c, hl⟩
    · rw [hnil] at h; simp at h
    · rw [hl, List.concat_eq_append] at h ⊢
      simp at h
      exact ⟨init, by rw [h]⟩
  unfold replaceNewlines
  simp [List.flatMap_append]

/-! ### The description index -/

theorem DescMap.get_set (m : DescMap) (k v name : String) :
    (m.set k v).get name = if name = k then v else m.get name := by
  unfold DescMap.set DescMap.get
  rw [List.lookup_cons]
  by_cases h : name = k
  · simp [h]
  · have : (name == k) = false := by simpa using h
    simp [this, h]

theorem lastNonInternal_cons (name : String) (lc : LinterWrapper)
    (rest : List LinterWrapper) :
    lastNonInternal name (lc :: rest) =
      match lastNonInternal name rest with
      | some last => some last
      | none => if lc.Internal = false ∧ lc.Name = name then some lc else none := by
  unfold lastNonInternal
  rw [List.filter_cons]
  by_cases h : lc.Internal = false ∧ lc.Name = name
  · have hb : (!lc.Internal && lc.Name == name) = true := by simp [h.1, h.2]
    rw [if_pos hb, List.getLast?_cons]
    cases hl : (List.filter (fun lc => !lc.Internal && lc.Name == name) rest).getLast? with
    | none => simp [h]
    | some last => simp
  · have hb : ¬ (!lc.Internal && lc.Name == name) = true := by
      simpa using h
    rw [if_neg hb]
    cases hl : (List.filter (fun lc => !lc.Internal && lc.Name == name) rest).getLast? with
    | none => simp [h]
    | some last => simp

/-- What the map `lintersDesc` holds for a name after the first loop of
`getSettingSections`. -/
theorem fillLintersDesc_get (env : Env) (name : String) :
    ∀ (linters : List LinterWrapper) (m m' : DescMap),
      fillLintersDesc env linters m = Outcome.ok m' →
        match lastNonInternal name linters with
        | some lc => getDesc env lc = Outcome.ok (m'.get name)
        | none => m'.get name = m.get name := by
  intro linters
  induction linters with
  | nil =>
    intro m m' h
    simp [fillLintersDesc] at h
    simp [lastNonInternal, h]
  | cons lc rest ih =>
    intro m m' h
    rw [fillLintersDesc] at h
    rw [lastNonInternal_cons]
    split at h
    · rename_i hint
      have := ih m m' h
      cases hl : lastNonInternal name rest with
      | some last => rw [hl] at this; simpa using this
      | none =>
        rw [hl] at this
        simp only [hint]
        simpa using this
    · rename_i hint
      rw [Outcome.bind_eq_ok] at h
      obtain ⟨d, hd, h⟩ := h
      have := ih _ m' h
      cases hl : lastNonInternal name rest with
      | some last => rw [hl] at this; simpa using this
      | none =>
        rw [hl] at this
        simp only at this ⊢
        rw [DescMap.get_set] at this
        by_cases hn : lc.Name = name
        · have hcond : lc.Internal = false ∧ lc.Name = name := ⟨by simpa using hint, hn⟩
          rw [if_pos hcond]
          rw [if_pos hn.symm] at this
          simp only
          rw [this]
          exact hd
        · have hcond : ¬ (lc.Internal = false ∧ lc.Name = name) := fun hc => hn hc.2
          rw [if_neg hcond]
          rw [if_neg (fun hc => hn hc.symm)] at this
          exact this

/-! ### The linters table -/

theorem stringsCompare_le (a b : String) : stringsCompare a b ≤ 0 ↔ a ≤ b := by
  unfold stringsCompare
  by_cases h : a = b
  · simp [h]
  · rw [if_neg h]
    by_cases hl : a < b
    · simp [hl, le_of_lt hl]
    · rw [if_neg hl]
      have : ¬ a ≤ b := fun hle => hl (lt_of_le_of_ne hle h)
      simp [this]

theorem stringsCompare_swap (a b : String) : stringsCompare b a = - stringsCompare a b := by
  unfold stringsCompare
  by_cases h : a = b
  · simp [h]
  · have h' : ¬ b = a := fun hb => h hb.symm
    rw [if_neg h, if_neg h']
    rcases lt_trichotomy a b with hl | hl | hl
    · have : ¬ b < a := not_lt_of_gt hl
      simp [hl, this]
    · exact absurd hl h
    · have : ¬ a < b := not_lt_of_gt hl
      simp [hl, this]

/-- The comparator of `getLintersListMarkdown` orders by deprecation first and
by name second. -/
theorem compareLinters_le (lib : Lib) (a b : LinterWrapper) :
    compareLinters lib a b ≤ 0 ↔
      (lib.IsDeprecated a = false ∧ lib.IsDeprecated b = true) ∨
        (lib.IsDeprecated a = lib.IsDeprecated b ∧ a.Name ≤ b.Name) := by
  unfold compareLinters
  cases ha : lib.IsDeprecated a <;> cases hb : lib.IsDeprecated b <;>
    simp [stringsCompare_le]

theorem compareLinters_swap (lib : Lib) (a b : LinterWrapper) :
    compareLinters lib b a = - compareLinters lib a b := by
  unfold compareLinters
  cases ha : lib.IsDeprecated a <;> cases hb : lib.IsDeprecated b <;> simp <;>
    exact stringsCompare_swap _ _

theorem compareLinters_trans (lib : Lib) (a b c : LinterWrapper)
    (hab : compareLinters lib a b ≤ 0) (hbc : compareLinters lib b c ≤ 0) :
    compareLinters lib a c ≤ 0 := by
  rw [compareLinters_le] at hab hbc ⊢
  rcases hab with ⟨ha, hb⟩ | ⟨hab1, hab2⟩
  · rcases hbc with ⟨hb', _⟩ | ⟨hbc1, _⟩
    · rw [hb] at hb'; cases hb'
    · exact Or.inl ⟨ha, by rw [← hbc1]; exact hb⟩
  · rcases hbc with ⟨hb, hc⟩ | ⟨hbc1, hbc2⟩
    · exact Or.inl ⟨by rw [hab1]; exact hb, hc⟩
    · exact Or.inr ⟨hab1.trans hbc1, le_trans hab2 hbc2⟩

theorem compareLinters_total (lib : Lib) (a b : LinterWrapper) :
    compareLinters lib a b ≤ 0 ∨ compareLinters lib b a ≤ 0 := by
  rw [compareLinters_swap lib a b]
  omega

theorem neededLinters_eq_filter (lib : Lib) (enabled : Bool) (linters : List LinterWrapper) :
    neededLinters lib enabled linters =
      linters.filter (fun lc => !lc.Internal &&
        (decide (lib.GroupStandard ∈ lc.Groups) == enabled)) := by
  induction linters with
  | nil => rfl
  | cons lc rest ih =>
    rw [neededLinters, List.filter_cons, ih]
    cases hi : lc.Internal
    · by_cases hg : decide (lib.GroupStandard ∈ lc.Groups) = enabled
      · simp [hg]
      · simp [hg]
    · simp

/-- The lines `tableLines` appends when every description is formatted: one
line per record, in the order of the records. -/
theorem tableLines_ok (env : Env) (lib : Lib) (d : LinterWrapper → String) :
    ∀ (l : List LinterWrapper) (lines : List String),
      (∀ lc ∈ l, getDesc env lc = Outcome.ok (d lc)) →
        tableLines env lib l lines =
          Outcome.ok (lines ++ l.map (fun lc => tableLine env lib lc (d lc))) := by
  intro l
  induction l with
  | nil => intro lines _; simp [tableLines]
  | cons lc rest ih =>
    intro lines h
    rw [tableLines, h lc (by simp)]
    simp only [Outcome.ok_bind]
    rw [ih _ (fun x hx => h x (by simp [hx]))]
    simp [tableLine]

theorem lastNonInternal_some (name : String) (linters : List LinterWrapper)
    (lc : LinterWrapper) (h : lastNonInternal name linters = some lc) :
    lc ∈ linters ∧ lc.Internal = false ∧ lc.Name = name := by
  unfold lastNonInternal at h
  have hm := List.mem_of_getLast?_eq_some h
  rw [List.mem_filter] at hm
  obtain ⟨h1, h2⟩ := hm
  simp at h2
  exact ⟨h1, h2.1, h2.2⟩

theorem lastNonInternal_none (name : String) (linters : List LinterWrapper)
    (h : ∀ lc ∈ linters, lc.Name = name → lc.Internal = true) :
    lastNonInternal name linters = none := by
  cases hl : lastNonInternal name linters with
  | none => rfl
  | some lc =>
    obtain ⟨h1, h2, h3⟩ := lastNonInternal_some name linters lc hl
    rw [h lc h1 h3] at h2
    cases h2

theorem fillLintersDesc_ok (env : Env) (d : LinterWrapper → String) :
    ∀ (linters : List LinterWrapper) (m : DescMap),
      (∀ lc ∈ linters, lc.Internal = false → getDesc env lc = Outcome.ok (d lc)) →
        ∃ m', fillLintersDesc env linters m = Outcome.ok m' := by
  intro linters
  induction linters with
  | nil => intro m _; exact ⟨m, rfl⟩
  | cons lc rest ih =>
    intro m h
    rw [fillLintersDesc]
    split
    · exact ih m (fun x hx => h x (by simp [hx]))
    · rename_i hint
      rw [h lc (by simp) (by simpa using hint)]
      exact ih _ (fun x hx => h x (by simp [hx]))

theorem sortedLinters_perm (lib : Lib) (enabled : Bool) (linters : List LinterWrapper)
    (hperm1 : ∀ less l, (lib.sortSlice less l).Perm l)
    (hperm2 : ∀ cmp l, (lib.sortFunc cmp l).Perm l) :
    (sortedLinters lib enabled linters).Perm (neededLinters lib enabled linters) := by
  unfold sortedLinters
  exact (hperm2 _ _).trans (hperm1 _ _)

theorem neededLinters_mem (lib : Lib) (enabled : Bool) (linters : List LinterWrapper)
    (lc : LinterWrapper) (h : lc ∈ neededLinters lib enabled linters) :
    lc ∈ linters ∧ lc.Internal = false ∧
      decide (lib.GroupStandard ∈ lc.Groups) = enabled := by
  rw [neededLinters_eq_filter, List.mem_filter] at h
  obtain ⟨h1, h2⟩ := h
  simp only [Bool.and_eq_true, Bool.not_eq_true', beq_iff_eq] at h2
  exact ⟨h1, h2.1, h2.2⟩

/-- The table text when the file is read and every description of a record
that is not internal is formatted: the two header lines and one line per
record of `sortedLinters`. -/
theorem getLintersListMarkdown_ok (env : Env) (lib : Lib) (enabled : Bool) (src : String)
    (linters : List LinterWrapper) (d : LinterWrapper → String)
    (hread : env.readJSONFile src = Except.ok linters)
    (hperm1 : ∀ less l, (lib.sortSlice less l).Perm l)
    (hperm2 : ∀ cmp l, (lib.sortFunc cmp l).Perm l)
    (hdesc : ∀ lc ∈ linters, lc.Internal = false → getDesc env lc = Outcome.ok (d lc)) :
    getLintersListMarkdown env lib enabled src =
      Outcome.ok (String.intercalate "\n"
        ([ "|Name|Description|AutoFix|Since|", "|----|-----------|-------|-----|" ] ++
          (sortedLinters lib enabled linters).map (fun lc => tableLine env lib lc (d lc)))) := by
  unfold getLintersListMarkdown
  rw [hread]
  simp only
  rw [tableLines_ok env lib d]
  · rfl
  · intro lc hlc
    have hm := (sortedLinters_perm lib enabled linters hperm1 hperm2).subset hlc
    obtain ⟨h1, h2, _⟩ := neededLinters_mem lib enabled linters lc hm
    exact hdesc lc h1 h2

/-! ### The sample library meets the contract of the two sorts -/

theorem sampleLib_sortSlice_perm (less : LinterWrapper → LinterWrapper → Bool)
    (l : List LinterWrapper) : (sampleLib.sortSlice less l).Perm l :=
  List.perm_insertionSort _ l

theorem sampleLib_sortFunc_perm (cmp : LinterWrapper → LinterWrapper → Int)
    (l : List LinterWrapper) : (sampleLib.sortFunc cmp l).Perm l :=
  List.perm_insertionSort _ l

theorem sampleLib_sortFunc_sorted (l : List LinterWrapper) :
    (sampleLib.sortFunc (compareLinters sampleLib) l).Pairwise
      (fun a b => compareLinters sampleLib a b ≤ 0) := by
  haveI : IsTotal LinterWrapper (fun a b => compareLinters sampleLib a b ≤ 0) :=
    ⟨compareLinters_total sampleLib⟩
  haveI : IsTrans LinterWrapper (fun a b => compareLinters sampleLib a b ≤ 0) :=
    ⟨compareLinters_trans sampleLib⟩
  exact List.sorted_insertionSort (fun a b => compareLinters sampleLib a b ≤ 0) l

/-- The descriptions of the sample records, formatted. -/
theorem sampleLinters_desc (env : Env) :
    ∀ lc ∈ sampleLinters, lc.Internal = false →
      getDesc env lc = Outcome.ok
        (if lc.Name = "golint" then "The repository is archived. Replaced by revive."
          else if lc.Name = "unused" then "Checks for unused code."
          else "Examines Go source code.") := by
  intro lc hlc hint
  simp only [sampleLinters, List.mem_cons, List.mem_singleton, List.not_mem_nil, or_false] at hlc
  rcases hlc with h | h | h | h <;> subst h
  · rfl
  · rfl
  · cases hint
  · rfl

/-! ### The text of one section -/

theorem span_back (env : Env) :
    span env "Back to the top" "<FaArrowUp />" =
      "<span title=\"Back to the top\"><FaArrowUp /></span>" := by
  rfl

theorem sectionBlock_text (env : Env) (name desc y : String) :
    "### " ++ name ++ "\n\n" ++ desc ++ "\n\n" ++ "```yaml\n" ++ y ++ "```\n\n" ++
        "[" ++ span env "Back to the top" "<FaArrowUp />" ++ "](#" ++ listItemPrefix ++
        name ++ ")\n\n\n" =
      "### " ++ name ++ "\n" ++ "\n" ++ desc ++ "\n" ++ "\n" ++
        "```yaml\n" ++ y ++ "```\n" ++ "\n" ++
        "[<span title=\"Back to the top\"><FaArrowUp /></span>](#list-item-" ++
        name ++ ")\n" ++ "\n" ++ "\n" := by
  rw [span_back]
  apply String.ext
  simp only [String.data_append, List.append_assoc, listItemPrefix]
  rfl

/-! ### Mapping nodes with an even number of children -/

theorem EvenMappings.even_length {n : Node} (h : EvenMappings n) :
    n.Kind = yaml.MappingNode → n.Content.length % 2 = 0 := by
  cases h with
  | mk _ even _ => exact even

theorem EvenMappings.of_child {n : Node} (h : EvenMappings n) :
    ∀ c ∈ n.Content, EvenMappings c := by
  cases h with
  | mk _ _ children => exact children

theorem evenMappings_leaf (n : Node) (h : n.Content = []) : EvenMappings n :=
  EvenMappings.mk n (by simp [h]) (by simp [h])

theorem evenMappings_pair (n a b : Node) (h : n.Content = [a, b])
    (ha : EvenMappings a) (hb : EvenMappings b) : EvenMappings n := by
  refine EvenMappings.mk n (by simp [h]) ?_
  intro c hc
  rw [h] at hc
  simp only [List.mem_cons, List.mem_singleton, List.not_mem_nil, or_false] at hc
  rcases hc with rfl | rfl
  · exact ha
  · exact hb

theorem evenMappings_of_evenWithin :
    ∀ (d : Nat) (n : Node), evenWithin d n = true → EvenMappings n := by
  intro d
  induction d with
  | zero =>
    intro n h
    simp only [evenWithin, Bool.and_eq_true, List.isEmpty_iff] at h
    exact evenMappings_leaf n h.2
  | succ d ih =>
    intro n h
    simp only [evenWithin, Bool.and_eq_true, Bool.or_eq_true, bne_iff_ne, ne_eq,
      beq_iff_eq, List.all_eq_true] at h
    refine EvenMappings.mk n ?_ (fun c hc => ih c (h.2 c hc))
    intro hk
    rcases h.1 with h1 | h1
    · exact absurd hk h1
    · exact h1

theorem evenMappings_with_content (y : Node) (cs : List Node)
    (hlen : y.Kind = yaml.MappingNode → cs.length % 2 = 0)
    (hcs : ∀ c ∈ cs, EvenMappings c) : EvenMappings { y with Content := cs } :=
  EvenMappings.mk _ hlen hcs

theorem settingsRedacted_even (node : Node) :
    ∀ (n : Nat) (cs : List Node), cs.length ≤ n → (∀ c ∈ cs, EvenMappings c) →
      ∀ c ∈ settingsRedacted node cs, EvenMappings c := by
  intro n
  induction n with
  | zero =>
    intro cs hn _ c hc
    obtain rfl : cs = [] := List.length_eq_zero.mp (Nat.le_zero.mp hn)
    simp [settingsRedacted] at hc
  | succ n ih =>
    intro cs hn hall c hc
    match cs, hn, hall, hc with
    | [], _, _, hc => simp [settingsRedacted] at hc
    | [a], _, hall, hc =>
      simp only [settingsRedacted, List.mem_singleton] at hc
      rw [hc]
      exact hall a (by simp)
    | a :: v :: rest, hn, hall, hc =>
      rw [settingsRedacted] at hc
      split at hc
      · rw [List.mem_cons] at hc
        rcases hc with rfl | hc
        · exact hall _ (by simp)
        · exact ih (v :: rest) (by simpa using hn) (fun x hx => hall x (by simp [hx])) c hc
      · rw [List.mem_cons, List.mem_cons] at hc
        rcases hc with rfl | rfl | hc
        · exact hall _ (by simp)
        · exact evenMappings_pair _ _ _ rfl (evenMappings_leaf _ rfl) (evenMappings_leaf _ rfl)
        · exact ih rest (by simp at hn; omega)
            (fun x hx => hall x (by simp [hx])) c hc

theorem redacted_even (x y : Node) (hy : EvenMappings y) :
    EvenMappings { y with Content := settingsRedacted x y.Content } := by
  refine evenMappings_with_content y _ ?_ ?_
  · intro hk
    have hl : (settingsRedacted x y.Content).length = y.Content.length := by
      simpa using congrArg List.length (settingsRedacted_shallow x _ y.Content (le_refl _))
    rw [hl]
    exact hy.even_length hk
  · exact settingsRedacted_even x _ _ (le_refl _) hy.of_child

theorem topLevelRedacted_even :
    ∀ (rest : List Node) (node : Node), EvenMappings node → (∀ c ∈ rest, EvenMappings c) →
      ∀ c ∈ topLevelRedacted node rest, EvenMappings c := by
  intro rest
  induction rest with
  | nil =>
    intro node hn _ c hc
    simp only [topLevelRedacted, List.mem_singleton] at hc
    rw [hc]
    exact hn
  | cons nextNode rest ih =>
    intro node hn hall c hc
    rw [topLevelRedacted] at hc
    split at hc
    · rw [List.mem_cons] at hc
      rcases hc with rfl | hc
      · exact hn
      · exact ih _ (redacted_even node nextNode (hall _ (by simp)))
          (fun x hx => hall x (by simp [hx])) c hc
    · rw [List.mem_cons] at hc
      rcases hc with rfl | hc
      · exact hn
      · exact ih _ (hall _ (by simp)) (fun x hx => hall x (by simp [hx])) c hc

theorem overviewPair_even (env : Env) (x y : Node) (hx : EvenMappings x)
    (hy : EvenMappings y) : ∀ c ∈ overviewPair env x y, EvenMappings c := by
  intro c hc
  unfold overviewPair at hc
  split at hc
  · simp only [List.mem_cons, List.mem_singleton, List.not_mem_nil, or_false] at hc
    rcases hc with rfl | rfl
    · exact EvenMappings.mk _ hx.even_length hx.of_child
    · exact hy
  · simp only [List.mem_cons, List.mem_singleton, List.not_mem_nil, or_false] at hc
    rcases hc with rfl | rfl
    · exact hx
    · exact evenMappings_pair _ _ _ rfl (evenMappings_leaf _ rfl) (evenMappings_leaf _ rfl)

theorem overviewPairs_even (env : Env) :
    ∀ cs : List Node, (∀ c ∈ cs, EvenMappings c) →
      (∀ c ∈ overviewPairs env cs, EvenMappings c) ∧ (overviewPairs env cs).length % 2 = 0 := by
  intro cs
  induction cs with
  | nil => intro _; simp [overviewPairs]
  | cons a cs ih =>
    intro hall
    cases cs with
    | nil => simp [overviewPairs]
    | cons b rest =>
      obtain ⟨ih1, ih2⟩ := ih (fun x hx => hall x (by simp [hx]))
      rw [overviewPairs]
      constructor
      · intro c hc
        rw [List.mem_append] at hc
        rcases hc with hc | hc
        · split at hc
          · exact overviewPair_even env a b (hall a (by simp)) (hall b (by simp)) c hc
          · simp at hc
        · exact ih1 c hc
      · rw [List.length_append]
        split
        · rw [overviewPair_length]
          omega
        · simpa using ih2

theorem pairsOf_mem :
    ∀ (n : Nat) (cs : List Node), cs.length ≤ n → ∀ p ∈ pairsOf cs, p.1 ∈ cs ∧ p.2 ∈ cs := by
  intro n
  induction n with
  | zero =>
    intro cs hn p hp
    obtain rfl : cs = [] := List.length_eq_zero.mp (Nat.le_zero.mp hn)
    simp [pairsOf] at hp
  | succ n ih =>
    intro cs hn p hp
    match cs, hn, hp with
    | [], _, hp => simp [pairsOf] at hp
    | [c], _, hp => simp [pairsOf] at hp
    | k :: v :: rest, hn, hp =>
      rw [pairsOf, List.mem_cons] at hp
      rcases hp with rfl | hp
      · simp
      · obtain ⟨h1, h2⟩ := ih rest (by simp at hn; omega) p hp
        exact ⟨by simp [h1], by simp [h2]⟩

theorem sectionDocument_even (node sv name body : Node) (hn : EvenMappings name)
    (hb : EvenMappings body) : EvenMappings (sectionDocument node sv name body) := by
  unfold sectionDocument
  refine evenMappings_pair _ _ _ rfl (evenMappings_leaf _ rfl) ?_
  refine evenMappings_pair _ _ _ rfl (evenMappings_leaf _ rfl) ?_
  exact evenMappings_pair _ _ _ rfl hn hb

theorem sectionDocuments_even (node sv : Node) (hsv : EvenMappings sv) :
    ∀ d ∈ sectionDocuments node sv, EvenMappings d := by
  intro d hd
  obtain ⟨p, hp, rfl⟩ := List.mem_map.mp hd
  obtain ⟨h1, h2⟩ := pairsOf_mem _ _ (le_refl _) p hp
  exact sectionDocument_even node sv p.1 p.2 (hsv.of_child _ h1) (hsv.of_child _ h2)

theorem settingsEncoded_even (node : Node) :
    ∀ (n : Nat) (cs : List Node), cs.length ≤ n → (∀ c ∈ cs, EvenMappings c) →
      ∀ d ∈ settingsEncoded node cs, EvenMappings d := by
  intro n
  induction n with
  | zero =>
    intro cs hn _ d hd
    obtain rfl : cs = [] := List.length_eq_zero.mp (Nat.le_zero.mp hn)
    simp [settingsEncoded] at hd
  | succ n ih =>
    intro cs hn hall d hd
    match cs, hn, hall, hd with
    | [], _, _, hd => simp [settingsEncoded] at hd
    | [a], _, _, hd => simp [settingsEncoded] at hd
    | a :: v :: rest, hn, hall, hd =>
      rw [settingsEncoded] at hd
      split at hd
      · exact ih (v :: rest) (by simpa using hn) (fun x hx => hall x (by simp [hx])) d hd
      · rw [List.mem_append] at hd
        rcases hd with hd | hd
        · exact sectionDocuments_even node v (hall v (by simp)) d hd
        · exact ih rest (by simp at hn; omega) (fun x hx => hall x (by simp [hx])) d hd

theorem topLevelEncoded_even (root : Node) :
    ∀ (rest : List Node) (node : Node), EvenMappings node → (∀ c ∈ rest, EvenMappings c) →
      ∀ d ∈ topLevelEncoded root node rest, EvenMappings d := by
  intro rest
  induction rest with
  | nil => intro node _ _ d hd; simp [topLevelEncoded] at hd
  | cons nextNode rest ih =>
    intro node hn hall d hd
    have hnext : EvenMappings nextNode := hall _ (by simp)
    have hrest : ∀ c ∈ rest, EvenMappings c := fun x hx => hall x (by simp [hx])
    rw [topLevelEncoded] at hd
    split at hd
    · exact ih nextNode hnext hrest d hd
    · split at hd
      · rw [List.mem_append, List.mem_cons] at hd
        rcases hd with hd | rfl | hd
        · exact settingsEncoded_even node _ _ (le_refl _) hnext.of_child d hd
        · exact evenMappings_pair _ _ _ rfl hn (redacted_even node nextNode hnext)
        · exact ih _ (redacted_even node nextNode hnext) hrest d hd
      · rw [List.mem_cons] at hd
        rcases hd with rfl | hd
        · exact evenMappings_pair _ _ _ rfl hn hnext
        · exact ih nextNode hnext hrest d hd

/-- Every node handed to the encoder has mapping nodes with an even number of
children at every depth when the source root has. -/
theorem encodedNodes_even (env : Env) (root : Node) (h : EvenMappings root) :
    ∀ d ∈ encodedNodes env root, EvenMappings d := by
  intro d hd
  unfold encodedNodes at hd
  split at hd
  · simp only [List.mem_singleton] at hd
    rw [hd]
    exact evenMappings_leaf _ rfl
  · rename_i node rest hc
    have hall : ∀ c ∈ node :: rest, EvenMappings c := by
      rw [← hc]
      exact h.of_child
    have hn : EvenMappings node := hall node (by simp)
    have hrest : ∀ c ∈ rest, EvenMappings c := fun x hx => hall x (by simp [hx])
    rw [List.mem_append, List.mem_singleton] at hd
    rcases hd with hd | rfl
    · exact topLevelEncoded_even root rest node hn hrest d hd
    · obtain ⟨h1, h2⟩ := overviewPairs_even env _ (topLevelRedacted_even rest node hn hrest)
      exact EvenMappings.mk _ (fun _ => h2) h1

/-- The overview keeps the node of a documented key other than `version`
with every field but its children as in the source. -/
theorem overview_key_kept (env : Env) (e : ExampleSnippetsExtractor) (root : Node)
    (st : LoopState) (root' : Node)
    (h : runTopLevelLoop env e root = Outcome.ok (st, root'))
    (j : Nat) (k v : Node) (hk : root.Content[j]? = some k)
    (hv : root.Content[j + 1]? = some v) (hdoc : k.Value ∈ documentedKeys)
    (hnv : k.Value ≠ "version") :
    ∃ n, st.globalContent[2 * documentedBefore root.Content j]? = some n ∧
      n.Tag = k.Tag ∧ n.Style = k.Style ∧ n.HeadComment = k.HeadComment ∧
      n.LineComment = k.LineComment ∧ n.FootComment = k.FootComment := by
  obtain ⟨k', v', _, _, hks, _, h0, _⟩ := overview_at env e root st root' h j k v hk hv hdoc
  have hnv' : k'.Value ≠ "version" := by rw [(shallow_fields hks).2.2.2]; exact hnv
  rw [overviewPair, if_neg hnv'] at h0
  have h1 : k'.shallow.HeadComment = k.shallow.HeadComment := congrArg Node.HeadComment hks
  have h2 : k'.shallow.LineComment = k.shallow.LineComment := congrArg Node.LineComment hks
  have h3 : k'.shallow.FootComment = k.shallow.FootComment := congrArg Node.FootComment hks
  exact ⟨k', by simpa using h0, (shallow_fields hks).2.2.1, (shallow_fields hks).2.1,
    h1, h2, h3⟩

/-! ## Claims -/

/-- C1 (evaluation at the failing input): on the document `mode: run`,
`level: high` the loop over `root.Content` ends normally and the overview has
the key `run`, although no key of the source root is in the allow-list: the
loop examines the value node `run` as if it were a key. -/
theorem stray_value_becomes_overview_key :
    ∃ st root', runTopLevelLoop (sampleEnv strayValueDocument []) NewExampleSnippetsExtractor
        strayValueDocument = Outcome.ok (st, root') ∧
      keyNames st.globalContent = ["run"] ∧
      (keyNames strayValueDocument.Content).filter (fun v => decide (v ∈ documentedKeys)) = [] :=
  ⟨_, _, rfl, by decide, by decide⟩

/-- C2 (counterexample): for the document `issues:` (a key with an empty
value) followed by `version: "2"`, the value paired with `issues` in the
overview has the kind of the source value, a scalar, and is not a mapping
node; its children are the two nodes `option`, `value`, that is one pair whose
only key is `option`. -/
theorem placeholder_not_always_mapping :
    ∃ st root' p, runTopLevelLoop (sampleEnv emptyIssuesDocument []) NewExampleSnippetsExtractor
        emptyIssuesDocument = Outcome.ok (st, root') ∧
      st.globalContent[1]? = some p ∧ p.Kind = yaml.ScalarNode ∧ p.Kind ≠ yaml.MappingNode ∧
      p.Content.map Node.Value = ["option", "value"] ∧
      (pairsOf p.Content).map (fun q => q.1.Value) = ["option"] :=
  ⟨_, _, _, rfl, rfl, by decide, by decide, by decide, by decide⟩

/-- C2 (amended): after a run of the top-level loop that ends normally, for
every child `k` of the source root with an allow-listed value other than
`version` that is followed by a child `v`, the overview holds at the
position of `k` a node with the fields of `k` and, paired with it, a freshly
built node that takes only its kind from `v` and has exactly two children:
the nodes valued `option` and `value` with the kind, style and tag of `k`,
the first with the head comment `See the dedicated "<key>" documentation
section.`; nothing else of `v` is part of it. -/
theorem overview_placeholder (env : Env) (e : ExampleSnippetsExtractor) (root : Node)
    (st : LoopState) (root' : Node)
    (h : runTopLevelLoop env e root = Outcome.ok (st, root'))
    (j : Nat) (k v : Node) (hk : root.Content[j]? = some k)
    (hv : root.Content[j + 1]? = some v) (hdoc : k.Value ∈ documentedKeys)
    (hnv : k.Value ≠ "version") :
    (st.globalContent[2 * documentedBefore root.Content j]?).map Node.shallow =
        some k.shallow ∧
      st.globalContent[2 * documentedBefore root.Content j + 1]? = some
        { Kind := v.Kind
          Content := [
            { HeadComment := "See the dedicated \"" ++ k.Value ++ "\" documentation section."
              Kind := k.Kind
              Style := k.Style
              Tag := k.Tag
              Value := "option"
              Content := [] },
            { Kind := k.Kind
              Style := k.Style
              Tag := k.Tag
              Value := "value"
              Content := [] } ] } := by
  obtain ⟨k', v', _, _, hks, hv', h0, h1⟩ := overview_at env e root st root' h j k v hk hv hdoc
  obtain ⟨hK, hS, hT, hV⟩ := shallow_fields hks
  have hnv' : k'.Value ≠ "version" := by rw [hV]; exact hnv
  have hvk : v'.Kind = v.Kind := by
    rw [hv']; split <;> rfl
  rw [h0, h1, overviewPair, if_neg hnv']
  refine ⟨by simp [hks], ?_⟩
  rw [hV, goQuote_documented env k.Value hdoc, hK, hS, hT, hvk]
  simp only [List.getElem?_cons_succ, List.getElem?_cons_zero, String.append_assoc]
  rw [← String.append_assoc "See the dedicated " "\""]
  rfl

/-- Witness of `overview_placeholder`: the key `linters` of the sample
document, at index 2 of the root, whose value is a mapping. -/
theorem overview_placeholder_witness :
    ∃ st root', runTopLevelLoop (sampleEnv sampleDocument sampleRecords)
        NewExampleSnippetsExtractor sampleDocument = Outcome.ok (st, root') ∧
      (st.globalContent[2 * documentedBefore sampleDocument.Content 2]?).map Node.shallow =
        some (scalarNode "linters").shallow ∧
      (st.globalContent[2 * documentedBefore sampleDocument.Content 2 + 1]?).map Node.Kind =
        some yaml.MappingNode :=
  ⟨_, _, rfl,
    (overview_placeholder (sampleEnv sampleDocument sampleRecords) NewExampleSnippetsExtractor
      sampleDocument _ _ rfl 2 (scalarNode "linters") _ rfl rfl (by decide) (by decide)).1,
    congrArg (Option.map Node.Kind)
      (overview_placeholder (sampleEnv sampleDocument sampleRecords) NewExampleSnippetsExtractor
        sampleDocument _ _ rfl 2 (scalarNode "linters") _ rfl rfl (by decide) (by decide)).2⟩

/-- C3 (evaluation at the failing inputs): in both documents every mapping
node has an even number of children and the `settings` mapping of `linters`
holds the one section `govet`, for which a call of `getSettingSections` on
that mapping returns a text that is not empty.  On `linters:` with
`default: settings` before `settings:` the inner loop takes the value
`settings` of `default` for the key, hands the key node `settings`, which has
no children, to `getSettingSections` and steps over it, so the mapping of the
sections is never visited.  On `linters:` with `settings:` before
`mode: settings` and `fast: true` the section is produced at the key
`settings` and then overwritten at the value `settings` of `mode` by the
empty text produced for the key node `fast`.  Both calls return normally with
an empty `LintersSettings`. -/
theorem settings_value_loses_sections :
    (pairsOf govetSettings.Content).map (fun p => p.1.Value) = ["govet"] ∧
      (∃ out, getSettingSections (sampleEnv settingsValueFirstDocument sampleLinters)
          NewExampleSnippetsExtractor (scalarNode "linters") govetSettings = Outcome.ok out ∧
        out ≠ "") ∧
      EvenMappings settingsValueFirstDocument ∧
      (∃ s, extractExampleSnippets (sampleEnv settingsValueFirstDocument sampleLinters)
          NewExampleSnippetsExtractor
          "linters:\n  default: settings\n  settings:\n    govet:\n      enable-all: true\n" =
            Outcome.ok s ∧
        s.LintersSettings = "") ∧
      EvenMappings settingsValueLastDocument ∧
      ∃ s, extractExampleSnippets (sampleEnv settingsValueLastDocument sampleLinters)
          NewExampleSnippetsExtractor
          ("linters:\n  settings:\n    govet:\n      enable-all: true\n" ++
            "  mode: settings\n  fast: true\n") = Outcome.ok s ∧
        s.LintersSettings = "" :=
  ⟨by decide, ⟨_, rfl, by decide⟩, evenMappings_of_evenWithin 5 _ (by decide), ⟨_, rfl, rfl⟩,
    evenMappings_of_evenWithin 5 _ (by decide), ⟨_, rfl, rfl⟩⟩

/-- A direct call of `getSettingSections`: for a container key node `node`
and a `settings` value `nextNode` with an even number of children, when the
metadata file is read, the descriptions are formatted and the encoder
succeeds on the section documents, `getSettingSections` returns the
concatenation, in the order of the (name, body) pairs of `nextNode`, of
exactly one block per pair: the heading `### <name>`, the description, the
fenced encoding of the document of that pair, and the link back. -/
theorem setting_sections_in_order (env : Env) (e : ExampleSnippetsExtractor)
    (node nextNode : Node) (linters : List LinterWrapper) (lintersDesc : DescMap)
    (render : Node → String)
    (hread : env.readJSONFile (filepathJoin e.assetsPath (node.Value ++ "-info.json")) =
      Except.ok linters)
    (hdesc : fillLintersDesc env linters [] = Outcome.ok lintersDesc)
    (heven : nextNode.Content.length % 2 = 0)
    (henc : ∀ p ∈ pairsOf nextNode.Content,
      env.encode (sectionDocument node nextNode p.1 p.2) =
        Except.ok (render (sectionDocument node nextNode p.1 p.2))) :
    getSettingSections env e node nextNode =
      Outcome.ok (String.join ((pairsOf nextNode.Content).map (fun p =>
        "### " ++ p.1.Value ++ "\n\n" ++ lintersDesc.get p.1.Value ++ "\n\n" ++
          "```yaml\n" ++ render (sectionDocument node nextNode p.1 p.2) ++ "```\n\n" ++
          "[" ++ span env "Back to the top" "<FaArrowUp />" ++ "](#" ++ listItemPrefix ++
          p.1.Value ++ ")\n\n\n"))) := by
  unfold getSettingSections
  rw [hread]
  simp only [Outcome.ofExcept, Outcome.ok_bind, hdesc]
  rw [sectionsLoop_ok env node nextNode lintersDesc render _ _ (le_refl _) heven henc]
  congr 1

/-- Witness of `setting_sections_in_order`: the two sections of the sample
`linters.settings` mapping, in the order `nolintlint`, `unused`. -/
theorem setting_sections_in_order_witness :
    getSettingSections (sampleEnv sampleDocument sampleRecords) NewExampleSnippetsExtractor
        (scalarNode "linters") sampleSettings =
      Outcome.ok (String.join ((pairsOf sampleSettings.Content).map (fun p =>
        "### " ++ p.1.Value ++ "\n\n" ++ sampleDescriptions.get p.1.Value ++ "\n\n" ++
          "```yaml\n" ++ sampleRender (sectionDocument (scalarNode "linters") sampleSettings
            p.1 p.2) ++ "```\n\n" ++
          "[" ++ span (sampleEnv sampleDocument sampleRecords) "Back to the top"
            "<FaArrowUp />" ++ "](#" ++ listItemPrefix ++ p.1.Value ++ ")\n\n\n"))) :=
  setting_sections_in_order (sampleEnv sampleDocument sampleRecords) NewExampleSnippetsExtractor
    (scalarNode "linters") sampleSettings sampleRecords sampleDescriptions sampleRender
    rfl rfl (by decide) (fun _ _ => rfl)

/-- C4: in a run of `getSettingSections` that returns, the document encoded
for the pair `i` of the `settings` value, (name, body), is the chain
mapping, container key, mapping, `settings` key, mapping, name, body: its
innermost mapping has exactly the children name and body, which are the
children `2 i` and `2 i + 1` of the source `settings` value as they are; and
the document is the same whatever the other children of the `settings` value
are, so nothing of a sibling section is part of it. -/
theorem section_document_chain (env : Env) (e : ExampleSnippetsExtractor)
    (node nextNode : Node) (out : String)
    (hrun : getSettingSections env e node nextNode = Outcome.ok out)
    (i : Nat) (name body : Node)
    (hp : (pairsOf nextNode.Content)[i]? = some (name, body)) :
    (∃ y, env.encode (sectionDocument node nextNode name body) = Except.ok y) ∧
      (sectionDocument node nextNode name body).Kind = yaml.MappingNode ∧
      (∃ k1 m1 k2 m2,
        (sectionDocument node nextNode name body).Content = [k1, m1] ∧
        k1.Kind = yaml.ScalarNode ∧ k1.Value = node.Value ∧ k1.Content = [] ∧
        m1.Kind = yaml.MappingNode ∧ m1.Content = [k2, m2] ∧
        k2.Kind = yaml.ScalarNode ∧ k2.Value = "settings" ∧ k2.Content = [] ∧
        m2.Kind = yaml.MappingNode ∧ m2.Content = [name, body]) ∧
      nextNode.Content[2 * i]? = some name ∧ nextNode.Content[2 * i + 1]? = some body ∧
      (∀ other : Node, other.Tag = nextNode.Tag →
        sectionDocument node other name body = sectionDocument node nextNode name body) := by
  have hmem : (name, body) ∈ pairsOf nextNode.Content := List.getElem?_mem hp
  have hget := pairsOf_get _ _ (le_refl _) i (name, body) hp
  refine ⟨getSettingSections_encoded env e node nextNode out hrun _ hmem, rfl,
    ⟨_, _, _, _, rfl, rfl, rfl, rfl, rfl, rfl, rfl, rfl, rfl, rfl, rfl⟩, hget.1, hget.2, ?_⟩
  intro other hother
  unfold sectionDocument
  rw [hother]

/-- Witness of `section_document_chain`: the section `unused`, pair 1 of the
sample `linters.settings` mapping. -/
theorem section_document_chain_witness :
    (∃ y, (sampleEnv sampleDocument sampleRecords).encode
        (sectionDocument (scalarNode "linters") sampleSettings (scalarNode "unused")
          (mappingNode [scalarNode "local-variables-are-used", scalarNode "false"])) =
        Except.ok y) ∧
      sampleSettings.Content[2 * 1 + 1]? =
        some (mappingNode [scalarNode "local-variables-are-used", scalarNode "false"]) :=
  have h := section_document_chain (sampleEnv sampleDocument sampleRecords)
    NewExampleSnippetsExtractor (scalarNode "linters") sampleSettings _
    rfl 1 (scalarNode "unused")
    (mappingNode [scalarNode "local-variables-are-used", scalarNode "false"]) rfl
  ⟨h.1, h.2.2.2.2.1⟩

/-- C5: after a run of the top-level loop that ends normally, for every child
`k` of the source root valued `version` that is followed by a child `v`, the
overview holds at the position of `k` a copy of `k` (same kind, style, tag
and value `version`) whose head comment is
`See the dedicated "version" documentation section.`, immediately followed by
the source node `v` itself, unchanged. -/
theorem overview_version (env : Env) (e : ExampleSnippetsExtractor) (root : Node)
    (st : LoopState) (root' : Node)
    (h : runTopLevelLoop env e root = Outcome.ok (st, root'))
    (j : Nat) (k v : Node) (hk : root.Content[j]? = some k)
    (hv : root.Content[j + 1]? = some v) (hver : k.Value = "version") :
    (∃ n, st.globalContent[2 * documentedBefore root.Content j]? = some n ∧
        n.Value = "version" ∧
        n.HeadComment = "See the dedicated \"version\" documentation section." ∧
        n.Kind = k.Kind ∧ n.Style = k.Style ∧ n.Tag = k.Tag) ∧
      st.globalContent[2 * documentedBefore root.Content j + 1]? = some v := by
  have hdoc : k.Value ∈ documentedKeys := by rw [hver]; decide
  obtain ⟨k', v', _, _, hks, hv', h0, h1⟩ := overview_at env e root st root' h j k v hk hv hdoc
  obtain ⟨hK, hS, hT, hV⟩ := shallow_fields hks
  have hver' : k'.Value = "version" := by rw [hV]; exact hver
  have hnc : ¬ (k.Value = keyLinters ∨ k.Value = keyFormatters) := by rw [hver]; decide
  rw [if_neg hnc] at hv'
  subst hv'
  rw [h0, h1, overviewPair, if_pos hver']
  refine ⟨⟨_, rfl, hver', ?_, hK, hS, hT⟩, rfl⟩
  show "See the dedicated " ++ goQuote env k'.Value ++ " documentation section." = _
  rw [hver', goQuote_documented env "version" (by decide)]
  rfl

/-- Witness of `overview_version`: the key `version` of the sample document,
at index 4 of the root, with the double-quoted value `2`. -/
theorem overview_version_witness :
    ∃ st root', runTopLevelLoop (sampleEnv sampleDocument sampleRecords)
        NewExampleSnippetsExtractor sampleDocument = Outcome.ok (st, root') ∧
      (∃ n, st.globalContent[2 * documentedBefore sampleDocument.Content 4]? = some n ∧
        n.Value = "version" ∧
        n.HeadComment = "See the dedicated \"version\" documentation section." ∧
        n.Kind = (scalarNode "version").Kind ∧ n.Style = (scalarNode "version").Style ∧
        n.Tag = (scalarNode "version").Tag) ∧
      st.globalContent[2 * documentedBefore sampleDocument.Content 4 + 1]? =
        some { scalarNode "2" with Style := 2 } :=
  ⟨_, _, rfl,
    overview_version (sampleEnv sampleDocument sampleRecords) NewExampleSnippetsExtractor
      sampleDocument _ _ rfl 4 (scalarNode "version") _ rfl rfl rfl⟩

/-- C6 (counterexample): in the sample document `linters.settings` has the
two sections `nolintlint` and `unused`; after the loop the `settings` value
has exactly two children, one `option`/`value` pair, and its only head comment
is `See the dedicated "linters.settings" documentation section.`: there is no
placeholder per section and no comment names a section. -/
theorem settings_placeholder_not_per_section :
    ∃ st root' v s, runTopLevelLoop (sampleEnv sampleDocument sampleRecords)
        NewExampleSnippetsExtractor sampleDocument = Outcome.ok (st, root') ∧
      (pairsOf sampleSettings.Content).map (fun p => p.1.Value) = ["nolintlint", "unused"] ∧
      root'.Content[3]? = some v ∧ v.Content[3]? = some s ∧
      s.Content.map Node.Value = ["option", "value"] ∧
      s.Content.map Node.HeadComment =
        ["See the dedicated \"linters.settings\" documentation section.", ""] ∧
      "See the dedicated \"linters.nolintlint\" documentation section." ∉
        s.Content.map Node.HeadComment :=
  ⟨_, _, _, _, rfl, by decide, rfl, rfl, by decide, by decide, by decide⟩

/-- C6 (amended): for a child `k` of the root valued `linters` or
`formatters` followed by `v`, and the first child of `v` valued `settings`,
followed by `sv`: in the tree after a run of the loop that ends normally, the
children of `sv` (all its sections at once) are replaced by one
`option`/`value` pair with the kind, style and tag of `k`, whose head comment
is `See the dedicated "<container>.settings" documentation section.`. -/
theorem settings_children_replaced (env : Env) (e : ExampleSnippetsExtractor) (root : Node)
    (st : LoopState) (root' : Node)
    (h : runTopLevelLoop env e root = Outcome.ok (st, root'))
    (j : Nat) (k v : Node) (hk : root.Content[j]? = some k)
    (hv : root.Content[j + 1]? = some v)
    (hcont : k.Value = keyLinters ∨ k.Value = keyFormatters)
    (pre : List Node) (sk sv : Node) (post : List Node)
    (hc : v.Content = pre ++ sk :: sv :: post)
    (hpre : ∀ c ∈ pre, c.Value ≠ "settings") (hsk : sk.Value = "settings") :
    ∃ v', root'.Content[j + 1]? = some v' ∧
      v'.Content[pre.length + 1]? = some
        { sv with
          Content := [
            { HeadComment :=
                "See the dedicated \"" ++ k.Value ++ ".settings\" documentation section."
              Kind := k.Kind
              Style := k.Style
              Tag := k.Tag
              Value := "option"
              Content := [] },
            { Kind := k.Kind
              Style := k.Style
              Tag := k.Tag
              Value := "value"
              Content := [] } ] } := by
  have hdoc : k.Value ∈ documentedKeys := by
    rcases hcont with hcont | hcont <;> rw [hcont] <;> decide
  obtain ⟨k', v', _, hv', _, hv'eq, _, _⟩ :=
    overview_at env e root st root' h j k v hk hv hdoc
  rw [if_pos hcont] at hv'eq
  refine ⟨v', hv', ?_⟩
  rw [hv'eq]
  show (settingsRedacted k v.Content)[pre.length + 1]? = _
  rw [hc, settingsRedacted_first k pre sk sv post hpre hsk, hsk]
  have : "See the dedicated \"" ++ k.Value ++ "." ++ "settings" ++
      "\" documentation section." =
      "See the dedicated \"" ++ k.Value ++ ".settings\" documentation section." := by
    simp only [String.append_assoc]
    rfl
  rw [this]

/-- Witness of `settings_children_replaced`: `linters.settings` of the sample
document, after the child pair `default: none`. -/
theorem settings_children_replaced_witness :
    ∃ st root' v', runTopLevelLoop (sampleEnv sampleDocument sampleRecords)
        NewExampleSnippetsExtractor sampleDocument = Outcome.ok (st, root') ∧
      root'.Content[2 + 1]? = some v' ∧
      (v'.Content[[scalarNode "default", scalarNode "none"].length + 1]?).map
        (fun s => s.Content.map Node.HeadComment) =
        some ["See the dedicated \"linters.settings\" documentation section.", ""] :=
  have h := settings_children_replaced (sampleEnv sampleDocument sampleRecords)
    NewExampleSnippetsExtractor sampleDocument _ _ rfl 2 (scalarNode "linters") _ rfl rfl
    (Or.inl rfl) [scalarNode "default", scalarNode "none"] (scalarNode "settings")
    sampleSettings [] rfl (by decide) rfl
  h.elim (fun v' hv' => ⟨_, _, v', rfl, hv'.1,
    congrArg (Option.map (fun s => s.Content.map Node.HeadComment)) hv'.2⟩)

/-- C7 (evaluation at the failing input): the document `version: "2"`,
`mode: run` has no `formatters` key at all, and `extractExampleSnippets`
panics on it: the loop examines the last node, the value `run`, as a key and
indexes `root.Content[j+1]` past the end. -/
theorem trailing_value_panics :
    trailingValueDocument.Content.map Node.Value = ["version", "2", "mode", "run"] ∧
      extractExampleSnippets (sampleEnv trailingValueDocument []) NewExampleSnippetsExtractor
        "version: \"2\"\nmode: run\n" = Outcome.panic "index out of range" :=
  ⟨rfl, rfl⟩

/-- C8 (counterexample): in the sample document the `settings` value under
`linters` has the children `nolintlint`, its body, `unused`, its body right
after parsing; after the loop the same node of the tree has the two children
`option`, `value`. -/
theorem settings_node_is_mutated :
    ∃ st root', runTopLevelLoop (sampleEnv sampleDocument sampleRecords)
        NewExampleSnippetsExtractor sampleDocument = Outcome.ok (st, root') ∧
      ((sampleDocument.Content[3]?.bind (fun v => v.Content[3]?)).map
        (fun s => s.Content.map Node.Value)) = some ["nolintlint", "", "unused", ""] ∧
      ((root'.Content[3]?.bind (fun v => v.Content[3]?)).map
        (fun s => s.Content.map Node.Value)) = some ["option", "value"] :=
  ⟨_, _, rfl, by decide, by decide⟩

/-- C8 (amended): a run of the loop that ends normally changes the parsed
tree only through the assignment to `Content` of a node that follows a
`settings` child inside a node that follows a `linters` or `formatters` child
of the root.  The root and each of its children and grandchildren keep every
field other than `Content`, hence also their number of children; the first
child of the root, and every child whose predecessor is not valued `linters`
or `formatters`, are unchanged; inside any child of the root the first
grandchild, and every grandchild whose predecessor is not valued `settings`,
are unchanged. -/
theorem source_tree_frame (env : Env) (e : ExampleSnippetsExtractor) (root : Node)
    (st : LoopState) (root' : Node)
    (h : runTopLevelLoop env e root = Outcome.ok (st, root')) :
    root'.shallow = root.shallow ∧
      root'.Content.map Node.shallow = root.Content.map Node.shallow ∧
      root'.Content[0]? = root.Content[0]? ∧
      ∀ (j : Nat) (x y : Node), root.Content[j]? = some x → root.Content[j + 1]? = some y →
        ∃ y', root'.Content[j + 1]? = some y' ∧
          y'.Content.map Node.shallow = y.Content.map Node.shallow ∧
          y'.Content[0]? = y.Content[0]? ∧
          (∀ (i : Nat) (c : Node), y.Content[i]? = some c → c.Value ≠ "settings" →
            y'.Content[i + 1]? = y.Content[i + 1]?) ∧
          (¬ (x.Value = keyLinters ∨ x.Value = keyFormatters) → y' = y) := by
  obtain ⟨h1, h2, _, _⟩ := runTopLevelLoop_ok env e root st root' h
  obtain ⟨h3, h4⟩ := root_children_after env e root st root' h
  refine ⟨h1, h2, h3, ?_⟩
  intro j x y hx hy
  refine ⟨_, h4 j x y hx hy, ?_⟩
  by_cases hcont : x.Value = keyLinters ∨ x.Value = keyFormatters
  · rw [if_pos hcont]
    refine ⟨settingsRedacted_shallow x _ _ (le_refl _), settingsRedacted_head x _, ?_, ?_⟩
    · intro i c hc hne
      exact settingsRedacted_after_other x _ _ (le_refl _) i c hc hne
    · intro hn
      exact absurd hcont hn
  · rw [if_neg hcont]
    exact ⟨rfl, rfl, fun _ _ _ _ => rfl, fun _ => rfl⟩

/-- Witness of `source_tree_frame`: in the sample document the value of `run`
(child 1 of the root, after the key `run`) is unchanged by the loop. -/
theorem source_tree_frame_witness :
    ∃ st root', runTopLevelLoop (sampleEnv sampleDocument sampleRecords)
        NewExampleSnippetsExtractor sampleDocument = Outcome.ok (st, root') ∧
      root'.shallow = sampleDocument.shallow ∧
      root'.Content[0 + 1]? = some (mappingNode [scalarNode "timeout", scalarNode "5m"]) :=
  have h := source_tree_frame (sampleEnv sampleDocument sampleRecords)
    NewExampleSnippetsExtractor sampleDocument _ _ rfl
  ⟨_, _, rfl, h.1,
    (h.2.2.2 0 (scalarNode "run") (mappingNode [scalarNode "timeout", scalarNode "5m"])
      rfl rfl).elim (fun _ hy => (hy.2.2.2.2 (by decide)) ▸ hy.1)⟩

/-- C9 (counterexample): with an encoder that succeeds on every node and a
metadata file that cannot be read, `extractExampleSnippets` on the sample
document returns the error of the read and no snippets, although no encoding
fails. -/
theorem read_failure_is_returned :
    (∀ n, ∃ y, (unreadableEnv sampleDocument).encode n = Except.ok y) ∧
      extractExampleSnippets (unreadableEnv sampleDocument) NewExampleSnippetsExtractor "" =
        Outcome.error "open assets/linters-info.json: no such file or directory" :=
  ⟨fun _ => ⟨_, rfl⟩, rfl⟩

/-- C9 (amended): for a document that parses to a root node, (1) if the
encoder fails on any node that `extractExampleSnippets` synthesizes (a
settings section document, a per-key section node or the overview node), no
`SettingSnippets` value is returned; (2) an error that is returned is the
error of a metadata read or of the encoder on one of these nodes, unchanged;
(3) if no encoding of these nodes fails and every metadata read succeeds, no
error is returned: the result is the snippets, unless the run panics. -/
theorem rendering_failure_aborts (env : Env) (e : ExampleSnippetsExtractor)
    (reference : String) (data root : Node) (tl : List Node)
    (hparse : env.unmarshal reference = Except.ok data) (hroot : data.Content = root :: tl) :
    ((∃ d ∈ encodedNodes env root, ∃ err, env.encode d = Except.error err) →
        ∀ s, extractExampleSnippets env e reference ≠ Outcome.ok s) ∧
      (∀ err, extractExampleSnippets env e reference = Outcome.error err →
        (∃ path, env.readJSONFile path = Except.error err) ∨
          ∃ d ∈ encodedNodes env root, env.encode d = Except.error err) ∧
      ((∀ d ∈ encodedNodes env root, ∃ y, env.encode d = Except.ok y) →
        (∀ path, ∃ records, env.readJSONFile path = Except.ok records) →
        (∃ s, extractExampleSnippets env e reference = Outcome.ok s) ∨
          ∃ p, extractExampleSnippets env e reference = Outcome.panic p) := by
  obtain ⟨h1, h2⟩ := extractExampleSnippets_encoded env e reference data root tl hparse hroot
  refine ⟨?_, h2, ?_⟩
  · rintro ⟨d, hd, err, hde⟩ s hs
    obtain ⟨y, hy⟩ := h1 s hs d hd
    rw [hy] at hde
    cases hde
  · intro henc hread
    cases hres : extractExampleSnippets env e reference with
    | ok s => exact Or.inl ⟨s, rfl⟩
    | panic p => exact Or.inr ⟨p, rfl⟩
    | error err =>
      rcases h2 err hres with ⟨path, hp⟩ | ⟨d, hd, hde⟩
      · obtain ⟨records, hr⟩ := hread path
        rw [hr] at hp
        cases hp
      · obtain ⟨y, hy⟩ := henc d hd
        rw [hy] at hde
        cases hde

/-- Witness of `rendering_failure_aborts`: the sample document with the sample
encoder and records, where nothing fails. -/
theorem rendering_failure_aborts_witness :
    (∃ s, extractExampleSnippets (sampleEnv sampleDocument sampleRecords)
        NewExampleSnippetsExtractor "" = Outcome.ok s) ∨
      ∃ p, extractExampleSnippets (sampleEnv sampleDocument sampleRecords)
        NewExampleSnippetsExtractor "" = Outcome.panic p :=
  (rendering_failure_aborts (sampleEnv sampleDocument sampleRecords) NewExampleSnippetsExtractor
    "" { Kind := yaml.DocumentNode, Content := [sampleDocument] } sampleDocument [] rfl rfl).2.2
    (fun _ _ => ⟨_, rfl⟩) (fun _ => ⟨_, rfl⟩)

/-- C10: when the encoder succeeds on `node` with the text `y`,
`marshallSnippet` returns the heading line `### <node.Value>` and a blank line
when `node.Value` is not empty (nothing when it is empty), then the line of
the opening fence labelled `yaml`, then `y`, then the line of the closing
fence, then one empty line. -/
theorem marshallSnippet_text (env : Env) (node : Node) (y : String)
    (h : env.encode node = Except.ok y) :
    marshallSnippet env node =
      Outcome.ok ((if node.Value ≠ "" then "### " ++ node.Value ++ "\n\n" else "") ++
        "```yaml\n" ++ y ++ "```\n" ++ "\n") := by
  unfold marshallSnippet
  rw [h]
  by_cases hv : node.Value = ""
  · simp [hv]
  · simp only [ne_eq, hv, not_false_eq_true, if_true]
    congr 1

/-- Witness of `marshallSnippet_text`: a node valued `run` that the sample
encoder writes as `timeout,5m`. -/
theorem marshallSnippet_text_witness :
    marshallSnippet (sampleEnv sampleDocument sampleRecords)
        { mappingNode [scalarNode "timeout", scalarNode "5m"] with Value := "run" } =
      Outcome.ok ((if ("run" : String) ≠ "" then "### " ++ "run" ++ "\n\n" else "") ++
        "```yaml\n" ++ "timeout,5m\n" ++ "```\n" ++ "\n") :=
  marshallSnippet_text (sampleEnv sampleDocument sampleRecords)
    { mappingNode [scalarNode "timeout", scalarNode "5m"] with Value := "run" }
    "timeout,5m\n" rfl

/-- C11: for a `settings` value with an even number of children, when the
metadata file is read, the index of descriptions is built and the encoder
succeeds on the section documents, the text `getSettingSections` returns is,
pair by pair and in order: the heading `### <name>`, an empty line, the
description the index holds for the name, an empty line, the fence labelled
`yaml`, the encoding of the section document, the closing fence, an empty
line, the link to the anchor `list-item-` followed by the name as it is, and
two empty lines.  The description of a name for which no record that is not
internal exists is the empty string. -/
theorem section_text (env : Env) (e : ExampleSnippetsExtractor)
    (node nextNode : Node) (linters : List LinterWrapper) (lintersDesc : DescMap)
    (render : Node → String)
    (hread : env.readJSONFile (filepathJoin e.assetsPath (node.Value ++ "-info.json")) =
      Except.ok linters)
    (hdesc : fillLintersDesc env linters [] = Outcome.ok lintersDesc)
    (heven : nextNode.Content.length % 2 = 0)
    (henc : ∀ p ∈ pairsOf nextNode.Content,
      env.encode (sectionDocument node nextNode p.1 p.2) =
        Except.ok (render (sectionDocument node nextNode p.1 p.2))) :
    getSettingSections env e node nextNode =
      Outcome.ok (String.join ((pairsOf nextNode.Content).map (fun p =>
        "### " ++ p.1.Value ++ "\n" ++ "\n" ++
          lintersDesc.get p.1.Value ++ "\n" ++ "\n" ++
          "```yaml\n" ++ render (sectionDocument node nextNode p.1 p.2) ++ "```\n" ++ "\n" ++
          "[<span title=\"Back to the top\"><FaArrowUp /></span>](#list-item-" ++
          p.1.Value ++ ")\n" ++ "\n" ++ "\n"))) ∧
      ∀ name, lastNonInternal name linters = none → lintersDesc.get name = "" := by
  constructor
  · unfold getSettingSections
    rw [hread]
    simp only [Outcome.ofExcept, Outcome.ok_bind, hdesc]
    rw [sectionsLoop_ok env node nextNode lintersDesc render _ _ (le_refl _) heven henc]
    simp only [sectionBlock_text]
    congr 1
  · intro name hnone
    have hget := fillLintersDesc_get env name linters [] lintersDesc hdesc
    rw [hnone] at hget
    rw [hget]
    rfl

/-- Witness of `section_text`: the two sections of the sample
`linters.settings` mapping with records that describe only `unused`. -/
theorem section_text_witness :
    getSettingSections (sampleEnv sampleDocument [{ Name := "unused", Desc := "finds unused code" }])
        NewExampleSnippetsExtractor (scalarNode "linters") sampleSettings =
      Outcome.ok (String.join ((pairsOf sampleSettings.Content).map (fun p =>
        "### " ++ p.1.Value ++ "\n" ++ "\n" ++
          DescMap.get [("unused", "Finds unused code.")] p.1.Value ++ "\n" ++ "\n" ++
          "```yaml\n" ++ sampleRender (sectionDocument (scalarNode "linters") sampleSettings
            p.1 p.2) ++ "```\n" ++ "\n" ++
          "[<span title=\"Back to the top\"><FaArrowUp /></span>](#list-item-" ++
          p.1.Value ++ ")\n" ++ "\n" ++ "\n"))) ∧
      ∀ name, lastNonInternal name [{ Name := "unused", Desc := "finds unused code" }] = none →
        DescMap.get [("unused", "Finds unused code.")] name = "" :=
  section_text (sampleEnv sampleDocument [{ Name := "unused", Desc := "finds unused code" }])
    NewExampleSnippetsExtractor (scalarNode "linters") sampleSettings
    [{ Name := "unused", Desc := "finds unused code" }] [("unused", "Finds unused code.")]
    sampleRender rfl rfl (by decide) (fun _ _ => rfl)

/-- C12: for a document that parses to the root `root` in which every mapping
node has an even number of children, every node that a run of
`extractExampleSnippets` hands to the encoder (the settings section documents
with their nested mappings, the per-key section nodes with the placeholders
they hold, the overview node with its placeholders) has only mapping nodes
with an even number of children, at every depth.  In a call that returns
snippets each node of the list `encodedNodes` was encoded and is such a node;
an error that the call returns is the error of a metadata read or of the
encoder on such a node of the list; hence with an encoder that accepts every
tree whose mapping nodes have an even number of children, and readable
metadata, the call returns no error.  The same holds of a call of
`getSettingSections` on a `settings` value with that property and its section
documents.  Every node of the list has the property, and so have the tree
itself and the overview node after a run of the loop that ends normally. -/
theorem synthesized_mappings_even (env : Env) (e : ExampleSnippetsExtractor)
    (reference : String) (data root : Node) (tl : List Node)
    (hparse : env.unmarshal reference = Except.ok data) (hroot : data.Content = root :: tl)
    (heven : EvenMappings root) :
    (∀ s, extractExampleSnippets env e reference = Outcome.ok s →
        ∀ d ∈ encodedNodes env root, EvenMappings d ∧ ∃ y, env.encode d = Except.ok y) ∧
      (∀ err, extractExampleSnippets env e reference = Outcome.error err →
        (∃ path, env.readJSONFile path = Except.error err) ∨
          ∃ d ∈ encodedNodes env root, EvenMappings d ∧ env.encode d = Except.error err) ∧
      ((∀ d, EvenMappings d → ∃ y, env.encode d = Except.ok y) →
        (∀ path, ∃ records, env.readJSONFile path = Except.ok records) →
        (∃ s, extractExampleSnippets env e reference = Outcome.ok s) ∨
          ∃ p, extractExampleSnippets env e reference = Outcome.panic p) ∧
      (∀ node sv, EvenMappings sv →
        (∀ out, getSettingSections env e node sv = Outcome.ok out →
          ∀ d ∈ sectionDocuments node sv, EvenMappings d ∧ ∃ y, env.encode d = Except.ok y) ∧
        (∀ err, getSettingSections env e node sv = Outcome.error err →
          (∃ path, env.readJSONFile path = Except.error err) ∨
            ∃ d ∈ sectionDocuments node sv,
              EvenMappings d ∧ env.encode d = Except.error err)) ∧
      (∀ d ∈ encodedNodes env root, EvenMappings d) ∧
      ∀ st root', runTopLevelLoop env e root = Outcome.ok (st, root') →
        EvenMappings root' ∧ EvenMappings (globalNode root st.globalContent) := by
  obtain ⟨h1, h2⟩ := extractExampleSnippets_encoded env e reference data root tl hparse hroot
  have hall := encodedNodes_even env root heven
  have herr : ∀ err, extractExampleSnippets env e reference = Outcome.error err →
      (∃ path, env.readJSONFile path = Except.error err) ∨
        ∃ d ∈ encodedNodes env root, EvenMappings d ∧ env.encode d = Except.error err := by
    intro err h
    rcases h2 err h with hr | ⟨d, hd, hde⟩
    · exact Or.inl hr
    · exact Or.inr ⟨d, hd, hall d hd, hde⟩
  refine ⟨fun s hs d hd => ⟨hall d hd, h1 s hs d hd⟩, herr, ?_, ?_, hall, ?_⟩
  · intro henc hread
    cases hres : extractExampleSnippets env e reference with
    | ok s => exact Or.inl ⟨s, rfl⟩
    | panic p => exact Or.inr ⟨p, rfl⟩
    | error err =>
      rcases herr err hres with ⟨path, hp⟩ | ⟨d, _, hd, hde⟩
      · obtain ⟨records, hr⟩ := hread path
        rw [hr] at hp
        cases hp
      · obtain ⟨y, hy⟩ := henc d hd
        rw [hy] at hde
        cases hde
  · intro node sv hsv
    have hdocs := sectionDocuments_even node sv hsv
    constructor
    · intro out h d hd
      exact ⟨hdocs d hd, getSettingSections_ok env e node sv out h d hd⟩
    · intro err h
      rcases getSettingSections_error env e node sv err h with hr | ⟨d, hd, hde⟩
      · exact Or.inl hr
      · exact Or.inr ⟨d, hd, hdocs d hd, hde⟩
  · intro st root' h
    obtain ⟨hsh, hmap, hov, hred⟩ := runTopLevelLoop_ok env e root st root' h
    have hkind : root'.Kind = root.Kind := (shallow_fields hsh).1
    have hlen : root'.Content.length = root.Content.length := by
      simpa using congrArg List.length hmap
    have hchildren : ∀ c ∈ root'.Content, EvenMappings c := by
      cases hc : root.Content with
      | nil =>
        rw [hc] at hlen
        have : root'.Content = [] := List.length_eq_zero.mp hlen
        rw [this]
        simp
      | cons node rest =>
        have hall : ∀ c ∈ node :: rest, EvenMappings c := by
          rw [← hc]
          exact heven.of_child
        rw [hred node rest hc]
        exact topLevelRedacted_even rest node (hall node (by simp))
          (fun x hx => hall x (by simp [hx]))
    constructor
    · refine EvenMappings.mk root' ?_ hchildren
      intro hk
      rw [hlen]
      exact heven.even_length (by rw [← hkind]; exact hk)
    · obtain ⟨h1, h2⟩ := overviewPairs_even env _ hchildren
      rw [hov]
      exact EvenMappings.mk _ (fun _ => h2) h1

/-- Witness of `synthesized_mappings_even`: the sample document, whose tree
ends within depth 5.  With the encoder of `strictEnv`, which refuses a node
with a mapping of an odd number of children, the call returns snippets and
every node of the list was encoded; with the encoder of `sampleEnv`, which
accepts every node, the call returns no error. -/
theorem synthesized_mappings_even_witness :
    (∃ s, extractExampleSnippets (strictEnv sampleDocument sampleRecords)
        NewExampleSnippetsExtractor "" = Outcome.ok s ∧
      ∀ d ∈ encodedNodes (strictEnv sampleDocument sampleRecords) sampleDocument,
        EvenMappings d ∧ ∃ y, (strictEnv sampleDocument sampleRecords).encode d = Except.ok y) ∧
      ((∃ s, extractExampleSnippets (sampleEnv sampleDocument sampleRecords)
          NewExampleSnippetsExtractor "" = Outcome.ok s) ∨
        ∃ p, extractExampleSnippets (sampleEnv sampleDocument sampleRecords)
          NewExampleSnippetsExtractor "" = Outcome.panic p) :=
  ⟨⟨_, rfl,
      (synthesized_mappings_even (strictEnv sampleDocument sampleRecords)
        NewExampleSnippetsExtractor "" { Kind := yaml.DocumentNode, Content := [sampleDocument] }
        sampleDocument [] rfl rfl (evenMappings_of_evenWithin 5 sampleDocument (by decide))).1
        _ rfl⟩,
    (synthesized_mappings_even (sampleEnv sampleDocument sampleRecords)
      NewExampleSnippetsExtractor "" { Kind := yaml.DocumentNode, Content := [sampleDocument] }
      sampleDocument [] rfl rfl
      (evenMappings_of_evenWithin 5 sampleDocument (by decide))).2.2.1
      (fun _ _ => ⟨_, rfl⟩) (fun _ => ⟨_, rfl⟩)⟩

/-- C13 (evaluation at the failing input): the key `version` of the document
carries the line comment `# schema version` and the foot comment
`# do not change`; the copy of the key placed in the overview has the tag and
the style of the key and the pointer as head comment, and its line comment
and foot comment are empty. -/
theorem version_key_comments_dropped :
    ∃ k st root' n, commentedVersionDocument.Content[0]? = some k ∧
      k.Value = "version" ∧ k.LineComment = "# schema version" ∧
      k.FootComment = "# do not change" ∧
      runTopLevelLoop (sampleEnv commentedVersionDocument []) NewExampleSnippetsExtractor
        commentedVersionDocument = Outcome.ok (st, root') ∧
      st.globalContent[0]? = some n ∧ n.Value = "version" ∧ n.Tag = k.Tag ∧
      n.Style = k.Style ∧
      n.HeadComment = "See the dedicated \"version\" documentation section." ∧
      n.LineComment = "" ∧ n.FootComment = "" :=
  ⟨_, _, _, _, rfl, rfl, rfl, rfl, rfl, rfl, rfl, rfl, rfl, rfl, rfl, rfl⟩

/-- C14: when every description of a record that is not internal is
formatted, the first loop of `getSettingSections` builds an index in which
the description of a name is `getDesc` of the last record with that name that
is not flagged internal, and is empty when every record with that name is
internal; and, the file being read and the two sorts returning permutations,
the table of `getLintersListMarkdown` has its two header lines and one line
per record of a list that holds no record flagged internal. -/
theorem internal_records_filtered (env : Env) (lib : Lib) (enabled : Bool) (src : String)
    (linters : List LinterWrapper) (d : LinterWrapper → String)
    (hread : env.readJSONFile src = Except.ok linters)
    (hperm1 : ∀ less l, (lib.sortSlice less l).Perm l)
    (hperm2 : ∀ cmp l, (lib.sortFunc cmp l).Perm l)
    (hdesc : ∀ lc ∈ linters, lc.Internal = false → getDesc env lc = Outcome.ok (d lc)) :
    (∃ m, fillLintersDesc env linters [] = Outcome.ok m ∧
      (∀ name lc, lastNonInternal name linters = some lc →
        lc.Internal = false ∧ lc.Name = name ∧ getDesc env lc = Outcome.ok (m.get name)) ∧
      (∀ name, (∀ lc ∈ linters, lc.Name = name → lc.Internal = true) → m.get name = "")) ∧
    (∃ rows : List LinterWrapper,
      (∀ lc ∈ rows, lc ∈ linters ∧ lc.Internal = false) ∧
      getLintersListMarkdown env lib enabled src =
        Outcome.ok (String.intercalate "\n"
          ([ "|Name|Description|AutoFix|Since|", "|----|-----------|-------|-----|" ] ++
            rows.map (fun lc => tableLine env lib lc (d lc))))) := by
  constructor
  · obtain ⟨m, hm⟩ := fillLintersDesc_ok env d linters [] hdesc
    refine ⟨m, hm, ?_, ?_⟩
    · intro name lc hl
      have hget := fillLintersDesc_get env name linters [] m hm
      rw [hl] at hget
      obtain ⟨_, h2, h3⟩ := lastNonInternal_some name linters lc hl
      exact ⟨h2, h3, hget⟩
    · intro name hall
      have hget := fillLintersDesc_get env name linters [] m hm
      rw [lastNonInternal_none name linters hall] at hget
      rw [hget]
      rfl
  · refine ⟨sortedLinters lib enabled linters, ?_,
      getLintersListMarkdown_ok env lib enabled src linters d hread hperm1 hperm2 hdesc⟩
    intro lc hlc
    have hmem := (sortedLinters_perm lib enabled linters hperm1 hperm2).subset hlc
    obtain ⟨h1, h2, _⟩ := neededLinters_mem lib enabled linters lc hmem
    exact ⟨h1, h2⟩

/-- Witness of `internal_records_filtered`: the sample records, among which
`typecheck` is internal, with the sample library. -/
theorem internal_records_filtered_witness :
    (∃ m, fillLintersDesc (sampleEnv sampleDocument sampleLinters) sampleLinters [] =
        Outcome.ok m ∧
      (∀ name lc, lastNonInternal name sampleLinters = some lc →
        lc.Internal = false ∧ lc.Name = name ∧
          getDesc (sampleEnv sampleDocument sampleLinters) lc = Outcome.ok (m.get name)) ∧
      (∀ name, (∀ lc ∈ sampleLinters, lc.Name = name → lc.Internal = true) →
        m.get name = "")) ∧
    (∃ rows : List LinterWrapper,
      (∀ lc ∈ rows, lc ∈ sampleLinters ∧ lc.Internal = false) ∧
      getLintersListMarkdown (sampleEnv sampleDocument sampleLinters) sampleLib true
          "assets/linters-info.json" =
        Outcome.ok (String.intercalate "\n"
          ([ "|Name|Description|AutoFix|Since|", "|----|-----------|-------|-----|" ] ++
            rows.map (fun lc => tableLine (sampleEnv sampleDocument sampleLinters) sampleLib lc
              (if lc.Name = "golint" then "The repository is archived. Replaced by revive."
                else if lc.Name = "unused" then "Checks for unused code."
                else "Examines Go source code."))))) :=
  internal_records_filtered (sampleEnv sampleDocument sampleLinters) sampleLib true
    "assets/linters-info.json" sampleLinters _ rfl sampleLib_sortSlice_perm
    sampleLib_sortFunc_perm (sampleLinters_desc _)

/-- C15 (evaluation at the failing inputs): in both documents every mapping
node has an even number of children.  On `linters:` with `default: none`
followed by `mode: issues` the loop over `root.Content` examines the last
node, the value `issues`, and `root.Content[j+1]` is out of range; on
`linters:` with `default: settings` the inner loop examines the last child,
the value `settings`, and `nextNode.Content[i+1]` is out of range.  Both calls
panic. -/
theorem index_out_of_range_reached :
    EvenMappings trailingIssuesDocument ∧
      extractExampleSnippets (sampleEnv trailingIssuesDocument []) NewExampleSnippetsExtractor
        "linters:\n  default: none\nmode: issues\n" = Outcome.panic "index out of range" ∧
      EvenMappings trailingSettingsDocument ∧
      extractExampleSnippets (sampleEnv trailingSettingsDocument []) NewExampleSnippetsExtractor
        "linters:\n  default: settings\n" = Outcome.panic "index out of range" :=
  ⟨evenMappings_of_evenWithin 3 _ (by decide), rfl,
    evenMappings_of_evenWithin 3 _ (by decide), rfl⟩

/-- C16 (evaluation at the failing input): on the empty description
`formatDesc` panics at `runes[0]`, and so does `getDesc` for a record that is
not deprecated and has an empty description, and for a deprecated record with
an empty message and no replacement. -/
theorem formatDesc_empty_panics (env : Env) :
    formatDesc env "" = Outcome.panic "index out of range [0] with length 0" ∧
      getDesc env { Name := "govet", Desc := "" } =
        Outcome.panic "index out of range [0] with length 0" ∧
      getDesc env { Name := "golint", Desc := "Checks style.", Deprecation := some {} } =
        Outcome.panic "index out of range [0] with length 0" :=
  ⟨rfl, rfl, rfl⟩

/-- C17: for a description that is not empty, with first rune `c` and the
other runes `tl`, `formatDesc` returns a string that contains no line feed,
whose last character is `.`, and that is the description with its first rune
in upper case and every line feed replaced by `<br/>`, with a period appended
or not; the period is appended only when the description does not end with
one. -/
theorem formatDesc_line (env : Env) (desc : String) (h : desc ≠ "") :
    ∃ c tl s, desc.toList = c :: tl ∧ formatDesc env desc = Outcome.ok s ∧
      '\n' ∉ s.toList ∧ s.toList.getLast? = some '.' ∧
      (s = replaceNewlines (String.mk (toUpper env c :: tl)) ∨
        (desc.toList.getLast? ≠ some '.' ∧
          s = replaceNewlines (String.mk (toUpper env c :: tl ++ ['.'])))) := by
  have hne : desc.toList ≠ [] := by
    intro hnil
    apply h
    apply String.ext
    simpa using hnil
  cases hd : desc.toList with
  | nil => exact absurd hd hne
  | cons c tl =>
    have hfd : formatDesc env desc = Outcome.ok (replaceNewlines (String.mk
        (if (toUpper env c :: tl).getLast? ≠ some '.' then toUpper env c :: tl ++ ['.']
          else toUpper env c :: tl))) := by
      unfold formatDesc
      simp only [hd]
    refine ⟨c, tl, _, rfl, hfd, flatMap_no_newline _, ?_, ?_⟩
    · apply replaceNewlines_getLast
      split
      · rw [List.getLast?_append]
        rfl
      · rename_i hl
        simpa using hl
    · split
      · rename_i hl
        right
        refine ⟨?_, rfl⟩
        cases tl with
        | nil =>
          intro hc
          simp at hc
          rw [hc, toUpper_period] at hl
          simp at hl
        | cons b tl =>
          simpa using hl
      · left
        rfl

/-- Witness of `formatDesc_line`: a description of two lines without a final
period. -/
theorem formatDesc_line_witness :
    ∃ c tl s, ("checks for\nunused code" : String).toList = c :: tl ∧
      formatDesc (sampleEnv sampleDocument []) "checks for\nunused code" = Outcome.ok s ∧
      '\n' ∉ s.toList ∧ s.toList.getLast? = some '.' ∧
      (s = replaceNewlines (String.mk (toUpper (sampleEnv sampleDocument []) c :: tl)) ∨
        (("checks for\nunused code" : String).toList.getLast? ≠ some '.' ∧
          s = replaceNewlines
            (String.mk (toUpper (sampleEnv sampleDocument []) c :: tl ++ ['.'])))) :=
  formatDesc_line (sampleEnv sampleDocument []) "checks for\nunused code" (by decide)

/-- C18: the comparator passed to `slices.SortFunc` gives opposite signs to
the two orders of a pair and is transitive.  When the file is read, the
descriptions are formatted and the two sorts meet their contract (they return
a permutation, and `slices.SortFunc` returns it ordered by the comparator),
the lines of the table after the header are one per record of a permutation
of the selected records in which no deprecated linter precedes one that is
not deprecated and, among linters of the same kind, names ascend. -/
theorem table_rows_sorted (env : Env) (lib : Lib) (enabled : Bool) (src : String)
    (linters : List LinterWrapper) (d : LinterWrapper → String)
    (hread : env.readJSONFile src = Except.ok linters)
    (hperm1 : ∀ less l, (lib.sortSlice less l).Perm l)
    (hperm2 : ∀ cmp l, (lib.sortFunc cmp l).Perm l)
    (hsorted : ∀ l, (lib.sortFunc (compareLinters lib) l).Pairwise
      (fun a b => compareLinters lib a b ≤ 0))
    (hdesc : ∀ lc ∈ linters, lc.Internal = false → getDesc env lc = Outcome.ok (d lc)) :
    (∀ a b, compareLinters lib b a = - compareLinters lib a b) ∧
      (∀ a b c, compareLinters lib a b ≤ 0 → compareLinters lib b c ≤ 0 →
        compareLinters lib a c ≤ 0) ∧
      ∃ rows : List LinterWrapper,
        rows.Perm (neededLinters lib enabled linters) ∧
        rows.Pairwise (fun a b =>
          (lib.IsDeprecated a = true → lib.IsDeprecated b = true) ∧
            (lib.IsDeprecated a = lib.IsDeprecated b → a.Name ≤ b.Name)) ∧
        getLintersListMarkdown env lib enabled src =
          Outcome.ok (String.intercalate "\n"
            ([ "|Name|Description|AutoFix|Since|", "|----|-----------|-------|-----|" ] ++
              rows.map (fun lc => tableLine env lib lc (d lc)))) := by
  refine ⟨compareLinters_swap lib, compareLinters_trans lib,
    sortedLinters lib enabled linters,
    sortedLinters_perm lib enabled linters hperm1 hperm2, ?_,
    getLintersListMarkdown_ok env lib enabled src linters d hread hperm1 hperm2 hdesc⟩
  unfold sortedLinters
  refine List.Pairwise.imp ?_ (hsorted _)
  intro a b hab
  rw [compareLinters_le] at hab
  rcases hab with ⟨ha, hb⟩ | ⟨h1, h2⟩
  · refine ⟨fun _ => hb, fun heq => ?_⟩
    rw [ha, hb] at heq
    cases heq
  · exact ⟨fun ha => by rw [← h1]; exact ha, fun _ => h2⟩

/-- Witness of `table_rows_sorted`: the sample records that are not in the
standard group, with the sample library. -/
theorem table_rows_sorted_witness :
    ∃ rows : List LinterWrapper,
      rows.Perm (neededLinters sampleLib false sampleLinters) ∧
      rows.Pairwise (fun a b =>
        (sampleLib.IsDeprecated a = true → sampleLib.IsDeprecated b = true) ∧
          (sampleLib.IsDeprecated a = sampleLib.IsDeprecated b → a.Name ≤ b.Name)) ∧
      getLintersListMarkdown (sampleEnv sampleDocument sampleLinters) sampleLib false
          "assets/linters-info.json" =
        Outcome.ok (String.intercalate "\n"
          ([ "|Name|Description|AutoFix|Since|", "|----|-----------|-------|-----|" ] ++
            rows.map (fun lc => tableLine (sampleEnv sampleDocument sampleLinters) sampleLib lc
              (if lc.Name = "golint" then "The repository is archived. Replaced by revive."
                else if lc.Name = "unused" then "Checks for unused code."
                else "Examines Go source code.")))) :=
  (table_rows_sorted (sampleEnv sampleDocument sampleLinters) sampleLib false
    "assets/linters-info.json" sampleLinters _ rfl sampleLib_sortSlice_perm
    sampleLib_sortFunc_perm sampleLib_sortFunc_sorted (sampleLinters_desc _)).2.2

/-- C19: `getName` is the name with its links followed, for a deprecated
record, by `&nbsp;` and the warning span whose title is
`deprecated since <Deprecation.Since>` exactly when `Deprecation.Replacement`
is not empty and `deprecated` otherwise, whatever `Deprecation.Since` is; for
a record without deprecation nothing is appended. -/
theorem getName_warning (env : Env) (lib : Lib) (lc : LinterWrapper) :
    getName env lib lc = nameWithLinks env lib lc ++
      (match lc.Deprecation with
        | none => ""
        | some d =>
          "&nbsp;" ++ "<span title=" ++
            goQuote env (if d.Replacement ≠ "" then "deprecated since " ++ d.Since
              else "deprecated") ++ ">" ++ "⚠" ++ "</span>") := by
  unfold getName
  cases hd : lc.Deprecation with
  | none =>
    simp only [hd]
    apply String.ext
    simp
  | some d =>
    simp only [hd, span]
    by_cases hr : d.Replacement = ""
    · simp only [hr, ne_eq, not_true_eq_false, if_false]
      apply String.ext
      simp [String.append_assoc]
    · have hs : "deprecated" ++ (" since " ++ d.Since) = "deprecated since " ++ d.Since := by
        rw [← String.append_assoc]
        rfl
      simp only [hr, ne_eq, not_false_eq_true, if_true, hs]
      apply String.ext
      simp [String.append_assoc]

end ExpandTemplates
